import Mathlib

/-!
Verification of the dedup engine of dclm-bds-project.

This file gives a shallow embedding, in Lean 4, of the deduplication core:
the Bloom-filter sizing math and membership index (src/dedup/bloomfilter.py),
the exact-hash engine (src/dedup/exact.py), the MinHash/LSH engine
(src/dedup/minhash.py) and the shingle+MinHash+Bloom hybrid
(src/dedup/minhash_bloom_hybrid.py), together with theorems settling the
frozen specification claims.

Modelling conventions:
* a Python record (dict) is an association list of field name to value;
* Python dict/set state is modelled by association lists with dict update
  semantics (replace in place, else append), preserving insertion order;
* cryptographic hashes (md5, sha256) and the datasketch MinHash/LSH
  internals are opaque deterministic functions, so theorems quantify over
  them; where a claim needs a property of the real function (e.g. that two
  texts do not collide) it is taken as a hypothesis;
* the worker pool computes pure per-record fingerprints and the main
  process consumes them in submission order (pool.imap is order
  preserving), so a chunk run is a sequential fold; a Python exception
  raised while producing an element is an Except.error that aborts the
  remaining iterations while keeping all state mutations already applied;
* Python floats are modelled as real numbers; int() on a nonnegative float
  is the floor, and on a negative one the ceiling (truncation toward zero).
-/

/-- Value stored in a record field: the engines only ever observe string
content and the appended integer duplicate-count annotation. -/
inductive Val where
  | str : String → Val
  | nat : ℕ → Val
deriving DecidableEq, Repr

/-- Python str() coercion as used by the bloom worker on a field value. -/
def Val.toStr : Val → String
  | .str s => s
  | .nat n => toString n

/-- A record is an ordered association list of field name to value. -/
abbrev Record := List (String × Val)

/-- Lookup of a key in an association list (Python d.get(k) / k in d). -/
def alookup {α : Type} (k : String) : List (String × α) → Option α
  | [] => none
  | (k', v) :: rest => if k' = k then some v else alookup k rest

/-- Dict update d[k] = v: replace in place if the key exists (keeping its
position, as Python dicts do), else append at the end. -/
def alistSet {α : Type} (k : String) (v : α) : List (String × α) → List (String × α)
  | [] => [(k, v)]
  | (k', v') :: rest => if k' = k then (k, v) :: rest else (k', v') :: alistSet k v rest

/-- Lookup with default (Python d.get(k, d0), or defaultdict access). -/
def alistGetD {α : Type} (k : String) (d : α) (l : List (String × α)) : α :=
  (alookup k l).getD d

/-- defaultdict(list) append: d[k].append(x). -/
def alistAppend {α : Type} (k : String) (x : α) :
    List (String × List α) → List (String × List α)
  | [] => [(k, [x])]
  | (k', g) :: rest => if k' = k then (k, g ++ [x]) :: rest else (k', g) :: alistAppend k x rest

/-- Errors the engines can raise per chunk: a KeyError for the designated
text column while building worker tasks, a failure inside a worker's
fingerprint computation, or a TypeError from calling a duplicate-logging
helper with a keyword argument its bound implementation does not accept
(utils.save_as_excel.log_duplicate_pair takes no threshold parameter and
save_duplicates_to_excel takes no parameters at all, yet exact.py passes
threshold=1.0 and step=step; the call raises at argument binding, before
either function body runs). -/
inductive DErr where
  | missingField : String → DErr
  | worker : String → DErr
  | typeErr : String → DErr
deriving DecidableEq, Repr

/-- A value of a metrics dictionary entry. -/
inductive MValue where
  | nat : ℕ → MValue
  | rat : ℚ → MValue
  | pairs : List (ℕ × String) → MValue
deriving DecidableEq, Repr

/-- The metrics dictionary an engine run returns. -/
abbrev Metrics := List (String × MValue)

/-- Python int() applied to a real value: truncation toward zero. -/
noncomputable def truncR (x : ℝ) : ℤ :=
  if 0 ≤ x then ⌊x⌋ else ⌈x⌉

/-- Runtime state of SimpleBloomFilter: the derived size, the derived hash
count, and the bit array modelled as the set of indices whose bit is set
(bitarray(size) with setall(False) is the empty set). The constructor
arguments capacity and error_rate are consumed by the sizing functions
below and are not read again afterwards. -/
structure SimpleBloomFilter where
  size : ℤ
  hash_count : ℤ
  bit_array : Finset ℕ
deriving DecidableEq

namespace SimpleBloomFilter

/-- Embeds _get_size: m = -(n * log p) / (log 2) ** 2, truncated by int(). -/
noncomputable def getSize (n : ℕ) (p : ℝ) : ℤ :=
  truncR (-((n : ℝ) * Real.log p) / Real.log 2 ^ 2)

/-- Embeds _get_hash_count: k = (m / n) * log 2, truncated by int(). -/
noncomputable def getHashCount (m : ℤ) (n : ℕ) : ℤ :=
  truncR ((m : ℝ) / (n : ℝ) * Real.log 2)

/-- Embeds SimpleBloomFilter.__init__(capacity, error_rate). -/
noncomputable def init (capacity : ℕ) (error_rate : ℝ) : SimpleBloomFilter :=
  let m := getSize capacity error_rate
  ⟨m, getHashCount m capacity, ∅⟩

/-- Embeds the _hashes generator: the bit index used for hash function i of
an item; ih abstracts the sha256-with-salt integer hash of the source. -/
def hashIndex (ih : String → ℕ → ℕ) (s : SimpleBloomFilter) (item : String) (i : ℕ) : ℕ :=
  ih item i % s.size.toNat

/-- Embeds add: sets the bit for each of the hash_count indices (range of a
nonpositive count is empty, exactly as in Python). -/
def add (ih : String → ℕ → ℕ) (s : SimpleBloomFilter) (item : String) : SimpleBloomFilter :=
  { s with bit_array :=
      (List.range s.hash_count.toNat).foldl (fun b i => insert (hashIndex ih s item i) b) s.bit_array }

/-- Embeds __contains__: all of the item's bits are set (the vacuous all
over an empty range yields true). -/
def contains (ih : String → ℕ → ℕ) (s : SimpleBloomFilter) (item : String) : Bool :=
  (List.range s.hash_count.toNat).all (fun i => decide (hashIndex ih s item i ∈ s.bit_array))

end SimpleBloomFilter

/-- Embeds BloomFilterDeduplicator._worker's content selection: the
alternate key when configured and present, else the text column with
default empty string; str() is applied in both branches. -/
def bloomWorkerContent (text_column : String) (key : Option String) (ex : Record) : String :=
  match key with
  | some k =>
    match alookup k ex with
    | some v => v.toStr
    | none => ((alookup text_column ex).getD (.str "")).toStr
  | none => ((alookup text_column ex).getD (.str "")).toStr

/-- Embeds the sequential membership loop shared by BloomFilterDeduplicator
and MinHashBloomDeduplicator: workers compute the pure fingerprint fp of
each record, the main process consumes the results in submission order and
performs the consistent contains-then-add on the single bloom index,
keeping a record exactly when its fingerprint was not yet present. -/
def bloomRunCore (ih : String → ℕ → ℕ) (fp : Record → String) (st : SimpleBloomFilter) :
    List Record → SimpleBloomFilter × List Record
  | [] => (st, [])
  | ex :: rest =>
    let f := fp ex
    if st.contains ih f then bloomRunCore ih fp st rest
    else
      let st' := st.add ih f
      let out := bloomRunCore ih fp st' rest
      (out.1, ex :: out.2)

/-- Embeds BloomFilterDeduplicator.run: sha abstracts hashlib.sha256 on the
worker's content; the returned metrics dictionary is empty. -/
def bloomRun (sha : String → String) (ih : String → ℕ → ℕ) (text_column : String)
    (key : Option String) (st : SimpleBloomFilter) (examples : List Record) :
    SimpleBloomFilter × List Record × Metrics :=
  let out := bloomRunCore ih (fun ex => sha (bloomWorkerContent text_column key ex)) st examples
  (out.1, out.2, ([] : Metrics))

/-- Embeds get_shingles: whitespace tokenization, then the set of n-gram
shingles joined by single spaces (an empty window count yields no
shingles, as a nonpositive Python range would). -/
def get_shingles (text : String) (n : ℕ) : Finset String :=
  let tokens := (text.split Char.isWhitespace).filter (fun t => t ≠ "")
  ((List.range (tokens.length + 1 - n)).map
    (fun i => " ".intercalate ((tokens.drop i).take n))).toFinset

/-- Embeds MinHashBloomDeduplicator._worker's content selection:
example.get(key if key else text_column, ""). -/
def hybridContent (text_column : String) (key : Option String) (ex : Record) : String :=
  ((alookup (key.getD text_column) ex).getD (.str "")).toStr

/-- Embeds the hybrid worker's fingerprint: shingles, then a MinHash
signature over the shingle set (msig abstracts datasketch's
compute_minhash_signature at the configured permutation count), then the
sha256 digest of the signature (hsig abstracts hash_signature). -/
def hybridFingerprint {Sig : Type} (msig : Finset String → Sig) (hsig : Sig → String)
    (text_column : String) (key : Option String) (ngram_size : ℕ) (ex : Record) : String :=
  hsig (msig (get_shingles (hybridContent text_column key ex) ngram_size))

/-- Embeds MinHashBloomDeduplicator.run: the same contains-then-add loop on
the shared bloom index, with the hybrid fingerprint; metrics is empty. -/
def hybridRun {Sig : Type} (msig : Finset String → Sig) (hsig : Sig → String)
    (ih : String → ℕ → ℕ) (text_column : String) (key : Option String) (ngram_size : ℕ)
    (st : SimpleBloomFilter) (examples : List Record) :
    SimpleBloomFilter × List Record × Metrics :=
  let out := bloomRunCore ih (hybridFingerprint msig hsig text_column key ngram_size) st examples
  (out.1, out.2, ([] : Metrics))

/-- Mutable state of ExactHashDeduplicator, persisted across chunks:
the set of seen digests, the digest-to-first-text map, the duplicate
groups (digest to list of (index, text)), and the cumulative duplicate
counter. -/
structure ExactState where
  seen_hashes : List String
  hash_to_text : List (String × String)
  duplicate_groups : List (String × List (ℕ × String))
  global_duplicates : ℕ
deriving DecidableEq, Repr

/-- The freshly constructed ExactHashDeduplicator state. -/
def exactFresh : ExactState := ⟨[], [], [], 0⟩

/-- Embeds building the worker payloads [(i, ex[text_column]) ...]: the
list comprehension evaluates records left to right and raises a KeyError
at the first record lacking the text column, before any processing. Each
produced task carries the enumeration index, the record and its text. -/
def buildTasksFrom (text_column : String) (i : ℕ) :
    List Record → Except DErr (List (ℕ × Record × String))
  | [] => .ok []
  | ex :: rest =>
    match alookup text_column ex with
    | none => .error (.missingField text_column)
    | some v =>
      match buildTasksFrom text_column (i + 1) rest with
      | .error e => .error e
      | .ok ts => .ok ((i, ex, v.toStr) :: ts)

/-- Worker payloads for a whole chunk, indices starting at 0. -/
def buildTasks (text_column : String) (chunk : List Record) :
    Except DErr (List (ℕ × Record × String)) :=
  buildTasksFrom text_column 0 chunk

/-- State update of the novel branch of ExactHashDeduplicator.run: insert
the digest, remember its text, and start its group with this record. -/
def exactNovel (st : ExactState) (idx : ℕ) (text h : String) : ExactState :=
  ⟨h :: st.seen_hashes, alistSet h text st.hash_to_text,
    alistSet h [(idx, text)] st.duplicate_groups, st.global_duplicates⟩

/-- State update of the duplicate branch: bump the cumulative duplicate
counter and append this record to the digest's group. -/
def exactDup (st : ExactState) (idx : ℕ) (text h : String) : ExactState :=
  { st with global_duplicates := st.global_duplicates + 1,
            duplicate_groups := alistAppend h (idx, text) st.duplicate_groups }

/-- Embeds the main consumption loop of ExactHashDeduplicator.run: results
arrive in submission order; w is the worker (hashlib.md5 on the text; a
worker exception surfaces here as an error that aborts the remaining
records while keeping the state mutations already applied, whose kept
rows and counts are lost with the raising call). In the duplicate branch
with logging enabled, the counter bump, the group append and the local
duplicate_counts append all happen first, and then the call
log_duplicate_pair(original_text=..., duplicate_text=..., threshold=1.0)
raises TypeError — the bound helper accepts no threshold keyword — so the
loop aborts at the first duplicate with those mutations retained and the
later records unprocessed. With logging disabled no logging call is made
(the novel branch never calls a logging helper either; duplicate_counts is
None, embedded as the empty list). On success the loop returns the kept
records and the per-processed-record duplicate_counts list. -/
def exactLoop (w : String → Except DErr String) (log_duplicates : Bool) (st : ExactState) :
    List (ℕ × Record × String) → ExactState × Except DErr (List Record × List ℕ)
  | [] => (st, .ok ([], []))
  | (idx, ex, text) :: rest =>
    match w text with
    | .error e => (st, .error e)
    | .ok h =>
      if st.seen_hashes.contains h then
        let st' := exactDup st idx text h
        if log_duplicates then (st', .error (.typeErr "log_duplicate_pair"))
        else exactLoop w log_duplicates st' rest
      else
        let st' := exactNovel st idx text h
        match exactLoop w log_duplicates st' rest with
        | (st'', .error e) => (st'', .error e)
        | (st'', .ok (kept, counts)) =>
          (st'', .ok (ex :: kept, if log_duplicates then 0 :: counts else counts))

/-- Stable descending insertion by the first component, matching Python's
stable sorted(key=lambda x: x[0], reverse=True): an element goes after
every earlier element whose key is greater or equal. -/
def insertDesc (x : ℕ × String) : List (ℕ × String) → List (ℕ × String)
  | [] => [x]
  | y :: ys => if x.1 ≤ y.1 then y :: insertDesc x ys else x :: y :: ys

/-- Stable descending sort by the first component. -/
def sortDesc (l : List (ℕ × String)) : List (ℕ × String) :=
  l.foldl (fun acc x => insertDesc x acc) []

/-- Embeds the top_duplicates metric: (group size, first text) for every
group with more than one member, sorted descending by size, truncated to
top_n_duplicates. -/
def topDuplicates (groups : List (String × List (ℕ × String))) (top_n : ℕ) :
    List (ℕ × String) :=
  (sortDesc (groups.filterMap (fun g =>
    if 1 < g.2.length then some (g.2.length, (g.2.headD (0, "")).2) else none))).take top_n

/-- Embeds appending the duplicate-count annotation: the i-th kept record
receives the i-th entry of the per-processed-record counts list. -/
def annotate (kept : List Record) (counts : List ℕ) : List Record :=
  kept.enum.map (fun p => alistSet "duplicate_count" (.nat (counts.getD p.1 0)) p.2)

/-- Embeds ExactHashDeduplicator.run: build the worker payloads (KeyError
on a record lacking the text column aborts before any processing), consume
results in order through exactLoop, then assemble the metrics dictionary.
With logging enabled the code next annotates the kept rows in place (the
i-th kept dict gets duplicate_counts[i], when the counts list is nonempty
by Python truthiness) and then calls save_duplicates(step=step), which
raises TypeError — the bound save_duplicates_to_excel takes no parameters
— so a logging-enabled run never returns its kept rows or metrics (the
annotation is a mutation of the caller's dicts, lost to run's caller along
with the return value). With logging disabled none of the logging blocks
execute and run returns the kept rows, never annotated, with the metrics.
The engine state is returned alongside the outcome because self keeps all
mutations applied before an exception. -/
def exactRun (w : String → Except DErr String) (text_column : String) (log_duplicates : Bool)
    (top_n : ℕ) (st : ExactState) (examples : List Record) :
    ExactState × Except DErr (List Record × Metrics) :=
  match buildTasks text_column examples with
  | .error e => (st, .error e)
  | .ok tasks =>
    match exactLoop w log_duplicates st tasks with
    | (st', .error e) => (st', .error e)
    | (st', .ok (kept, _counts)) =>
      if log_duplicates then (st', .error (.typeErr "save_duplicates"))
      else
        (st', .ok (kept,
          [("processed_total", .nat examples.length),
           ("unique_docs", .nat kept.length),
           ("duplicates", .nat st'.global_duplicates),
           ("duplicate_ratio", .rat ((st'.global_duplicates : ℚ) / (max 1 examples.length : ℚ))),
           ("top_duplicates", .pairs (topDuplicates st'.duplicate_groups top_n))]))

/-- Decimal representation of a natural number (what a Python f-string
interpolation of an int produces), built from its base-10 digits. -/
def decimalStr (c : ℕ) : String :=
  if c = 0 then "0" else ⟨((Nat.digits 10 c).reverse.map Nat.digitChar)⟩

/-- Embeds the synthetic LSH bucket key f"doc_{key_counter}". -/
def dockey (c : ℕ) : String := "doc_" ++ decimalStr c

/-- Mutable state of MinHashDeduplicator, persisted across chunks: the LSH
index as the ordered list of (key, signature) insertions (query is
abstracted over this list), the group table mapping each synthetic key to
its (chunk id, record index, text) members, the synthetic key counter, and
the cumulative processed/duplicate counters. -/
structure MinHashState (Sig : Type) where
  lsh : List (String × Sig)
  index : List (String × List (ℕ × ℕ × String))
  key_counter : ℕ
  processed_count : ℕ
  global_duplicates : ℕ
deriving DecidableEq

/-- The freshly constructed MinHashDeduplicator state. -/
def minhashFresh (Sig : Type) : MinHashState Sig := ⟨[], [], 0, 0, 0⟩

/-- Embeds the sequential LSH loop of MinHashDeduplicator.run: mh abstracts
the worker's MinHash of the text's token set, query abstracts
MinHashLSH.query against the insertions made so far. No match: insert a
new group under the fresh synthetic key and keep the record. Match: append
the record to the group of the first returned key and discard it. Returns
the final state, the kept records and the per-processed-record
duplicate_counts entries. -/
def minhashLoop {Sig : Type} (mh : String → Sig)
    (query : List (String × Sig) → Sig → List String) (chunk_id : ℕ) (log_duplicates : Bool)
    (st : MinHashState Sig) :
    List (ℕ × Record × String) → MinHashState Sig × List Record × List ℕ
  | [] => (st, [], [])
  | (idx, ex, text) :: rest =>
    let sig := mh text
    match query st.lsh sig with
    | [] =>
      let key := dockey st.key_counter
      let st' := { st with lsh := st.lsh ++ [(key, sig)],
                           index := alistSet key [(chunk_id, idx, text)] st.index,
                           key_counter := st.key_counter + 1 }
      let out := minhashLoop mh query chunk_id log_duplicates st' rest
      (out.1, ex :: out.2.1, if log_duplicates then 0 :: out.2.2 else out.2.2)
    | matched_key :: _ =>
      let g := alistGetD matched_key [] st.index ++ [(chunk_id, idx, text)]
      let st' := { st with index := alistSet matched_key g st.index,
                           global_duplicates := st.global_duplicates + 1 }
      let out := minhashLoop mh query chunk_id log_duplicates st' rest
      (out.1, out.2.1, if log_duplicates then (g.length - 1) :: out.2.2 else out.2.2)

/-- The sub-list of the worker payloads whose records the LSH loop keeps
(proof companion of minhashLoop, following the same branching). -/
def minhashKeptTasks {Sig : Type} (mh : String → Sig)
    (query : List (String × Sig) → Sig → List String) (chunk_id : ℕ)
    (st : MinHashState Sig) :
    List (ℕ × Record × String) → List (ℕ × Record × String)
  | [] => []
  | (idx, ex, text) :: rest =>
    let sig := mh text
    match query st.lsh sig with
    | [] =>
      let key := dockey st.key_counter
      let st' := { st with lsh := st.lsh ++ [(key, sig)],
                           index := alistSet key [(chunk_id, idx, text)] st.index,
                           key_counter := st.key_counter + 1 }
      (idx, ex, text) :: minhashKeptTasks mh query chunk_id st' rest
    | matched_key :: _ =>
      let g := alistGetD matched_key [] st.index ++ [(chunk_id, idx, text)]
      let st' := { st with index := alistSet matched_key g st.index,
                           global_duplicates := st.global_duplicates + 1 }
      minhashKeptTasks mh query chunk_id st' rest

/-- Embeds the metrics dictionary _log_metrics assembles (after the
processed counter was updated); it is logged externally and is not part of
what run returns. -/
def minhashMetrics {Sig : Type} (st : MinHashState Sig)
    (chunk_size chunk_kept chunk_duplicates : ℕ) : Metrics :=
  [("processed_total", .nat st.processed_count),
   ("chunk_size", .nat chunk_size),
   ("chunk_kept", .nat chunk_kept),
   ("chunk_duplicates", .nat chunk_duplicates),
   ("global_unique", .nat st.index.length),
   ("global_duplicates", .nat st.global_duplicates),
   ("duplicate_ratio", .rat ((st.global_duplicates : ℚ) / (max 1 st.processed_count : ℚ)))]

/-- Embeds MinHashDeduplicator.run: build worker payloads (KeyError on a
missing text column aborts before any processing), consume the MinHash
results in order through the LSH loop, bump the cumulative processed
counter, and annotate the kept rows with duplicate_counts when logging is
enabled and the counts list is nonempty. Only the kept records are
returned; the metrics dictionary is computed and logged externally. -/
def minhashRun {Sig : Type} (mh : String → Sig)
    (query : List (String × Sig) → Sig → List String) (text_column : String) (chunk_id : ℕ)
    (log_duplicates : Bool) (st : MinHashState Sig) (chunk : List Record) :
    MinHashState Sig × Except DErr (List Record) :=
  match buildTasks text_column chunk with
  | .error e => (st, .error e)
  | .ok tasks =>
    let out := minhashLoop mh query chunk_id log_duplicates st tasks
    let st' := { out.1 with processed_count := out.1.processed_count + chunk.length }
    let kept' := if log_duplicates && !out.2.2.isEmpty then annotate out.2.1 out.2.2 else out.2.1
    (st', .ok kept')

/-- How many times record (chunk_id, idx) occurs across all groups of the
LSH group table. -/
def groupMult (chunk_id idx : ℕ) (index : List (String × List (ℕ × ℕ × String))) : ℕ :=
  (index.map (fun g => (g.2.filter (fun e => e.1 = chunk_id ∧ e.2.1 = idx)).length)).sum

/-- Removing a field from a record (proof helper: records compared up to
the appended duplicate-count annotation). -/
def stripField (k : String) (r : Record) : Record :=
  r.filter (fun p => !decide (p.1 = k))

/-- The sub-list of the worker payloads whose records the exact loop keeps
(proof companion of exactLoop under a total worker, following the same
branching and state updates). -/
def exactKeptTasks (md5 : String → String) (st : ExactState) :
    List (ℕ × Record × String) → List (ℕ × Record × String)
  | [] => []
  | (idx, ex, text) :: rest =>
    let h := md5 text
    if st.seen_hashes.contains h then exactKeptTasks md5 (exactDup st idx text h) rest
    else (idx, ex, text) :: exactKeptTasks md5 (exactNovel st idx text h) rest

/-! ### Association-list and annotation lemmas -/

theorem alookup_alistSet_self {α : Type} (k : String) (v : α) (l : List (String × α)) :
    alookup k (alistSet k v l) = some v := by
  induction l with
  | nil => simp [alistSet, alookup]
  | cons p rest ih =>
    obtain ⟨k', v'⟩ := p
    by_cases h : k' = k
    · subst h; simp [alistSet, alookup]
    · simp [alistSet, alookup, h, ih]

theorem alookup_alistSet_ne {α : Type} (k k' : String) (v : α) (l : List (String × α))
    (h : k' ≠ k) : alookup k' (alistSet k v l) = alookup k' l := by
  induction l with
  | nil =>
    simp only [alistSet, alookup]
    rw [if_neg (fun hh => h hh.symm)]
  | cons p rest ih =>
    obtain ⟨k0, v0⟩ := p
    by_cases h0 : k0 = k
    · subst h0
      simp only [alistSet, if_pos rfl, alookup]
      rw [if_neg (fun hh => h hh.symm), if_neg (fun hh => h hh.symm)]
    · simp only [alistSet, if_neg h0, alookup]
      by_cases h1 : k0 = k'
      · simp [h1]
      · simp [h1, ih]

theorem annotate_length (kept : List Record) (counts : List ℕ) :
    (annotate kept counts).length = kept.length := by
  simp [annotate]

theorem stripField_alistSet (k : String) (v : Val) (r : Record) :
    stripField k (alistSet k v r) = stripField k r := by
  induction r with
  | nil => simp [alistSet, stripField]
  | cons p rest ih =>
    obtain ⟨k', v'⟩ := p
    by_cases h : k' = k
    · subst h; simp [alistSet, stripField]
    · simp only [alistSet, if_neg h]
      simp only [stripField] at ih ⊢
      simp [List.filter_cons, h, ih]

theorem stripField_of_absent (k : String) (r : Record) (h : alookup k r = none) :
    stripField k r = r := by
  induction r with
  | nil => simp [stripField]
  | cons p rest ih =>
    obtain ⟨k', v'⟩ := p
    simp only [alookup] at h
    by_cases h0 : k' = k
    · simp [h0] at h
    · simp only [alookup, if_neg h0] at h
      have hr := ih h
      simp only [stripField] at hr ⊢
      simp [List.filter_cons, h0, hr]

theorem annotate_enumFrom_strip (dc : String) (kept : List Record) (f : ℕ → Val) (i0 : ℕ) :
    ((List.enumFrom i0 kept).map (fun p => alistSet dc (f p.1) p.2)).map (stripField dc) =
      kept.map (stripField dc) := by
  induction kept generalizing i0 with
  | nil => simp
  | cons r rest ih => simp [List.enumFrom_cons, stripField_alistSet, ih]

theorem annotate_map_strip (kept : List Record) (counts : List ℕ) :
    (annotate kept counts).map (stripField "duplicate_count") =
      kept.map (stripField "duplicate_count") := by
  have h := annotate_enumFrom_strip "duplicate_count" kept (fun i => .nat (counts.getD i 0)) 0
  simpa [annotate, List.enum] using h

/-! ### Exact engine: task building and run inversions -/

theorem buildTasksFrom_missing (text_column : String) (chunk : List Record) (i : ℕ)
    (h : ∃ ex ∈ chunk, alookup text_column ex = none) :
    buildTasksFrom text_column i chunk = .error (.missingField text_column) := by
  induction chunk generalizing i with
  | nil => simp at h
  | cons ex rest ih =>
    obtain ⟨ex0, hmem, hnone⟩ := h
    rcases List.mem_cons.mp hmem with h0 | h0
    · subst h0
      simp [buildTasksFrom, hnone]
    · cases hx : alookup text_column ex with
      | none => simp [buildTasksFrom, hx]
      | some v => simp [buildTasksFrom, hx, ih i.succ ⟨ex0, h0, hnone⟩]

theorem buildTasksFrom_ok_records (text_column : String) (chunk : List Record) (i : ℕ)
    (tasks : List (ℕ × Record × String))
    (h : buildTasksFrom text_column i chunk = .ok tasks) :
    tasks.map (fun t => t.2.1) = chunk := by
  induction chunk generalizing i tasks with
  | nil => simp [buildTasksFrom] at h; simp [← h]
  | cons ex rest ih =>
    simp only [buildTasksFrom] at h
    cases hx : alookup text_column ex with
    | none => rw [hx] at h; cases h
    | some v =>
      rw [hx] at h
      cases hr : buildTasksFrom text_column (i + 1) rest with
      | error e => rw [hr] at h; cases h
      | ok ts => rw [hr] at h; cases h; simp [ih (i + 1) ts hr]

theorem exactRun_ok_inv (w : String → Except DErr String) (text_column : String)
    (log_duplicates : Bool) (top_n : ℕ) (st : ExactState) (chunk : List Record)
    (st' : ExactState) (K : List Record) (M : Metrics)
    (h : exactRun w text_column log_duplicates top_n st chunk = (st', .ok (K, M))) :
    ∃ tasks kept counts,
      buildTasks text_column chunk = .ok tasks ∧
      exactLoop w log_duplicates st tasks = (st', .ok (kept, counts)) ∧
      K = (if log_duplicates && !counts.isEmpty then annotate kept counts else kept) ∧
      M = [("processed_total", .nat chunk.length),
           ("unique_docs", .nat kept.length),
           ("duplicates", .nat st'.global_duplicates),
           ("duplicate_ratio",
             .rat ((st'.global_duplicates : ℚ) / (max 1 chunk.length : ℚ))),
           ("top_duplicates", .pairs (topDuplicates st'.duplicate_groups top_n))] := by
  unfold exactRun at h
  split at h
  · simp at h
  · next tasks hbt =>
    split at h
    · simp at h
    · next st2 kept counts hel =>
      split at h
      · simp at h
      · next hd =>
        rw [Bool.not_eq_true] at hd
        simp only [Prod.mk.injEq, Except.ok.injEq] at h
        obtain ⟨h1, h2, h3⟩ := h
        subst h1
        refine ⟨tasks, kept, counts, hbt, hel, ?_, h3.symm⟩
        simp only [hd, Bool.false_and, Bool.false_eq_true, if_false]
        exact h2.symm

/-! ### Claim C4: missing text field aborts the exact chunk -/

/-- Claim C4: if any record in the input chunk lacks the designated text
field, ExactHashDeduplicator.run fails with the missing-field KeyError
raised while evaluating that record's worker payload, the error
propagates and stops the chunk, and no records of the chunk are kept or
counted (the engine state is unchanged, since the payload list is built
before any processing). -/
theorem c4_missing_field_aborts_chunk (w : String → Except DErr String)
    (text_column : String) (log_duplicates : Bool) (top_n : ℕ) (st : ExactState)
    (chunk : List Record) (h : ∃ ex ∈ chunk, alookup text_column ex = none) :
    exactRun w text_column log_duplicates top_n st chunk =
      (st, .error (.missingField text_column)) := by
  unfold exactRun buildTasks
  rw [buildTasksFrom_missing text_column chunk 0 h]

/-- Witness for C4 at a concrete chunk whose only record lacks "text". -/
theorem c4_witness :
    (∃ ex ∈ [[("other", Val.str "x")]], alookup "text" ex = none) ∧
    exactRun (fun t => .ok t) "text" true 10 exactFresh [[("other", Val.str "x")]] =
      (exactFresh, .error (.missingField "text")) :=
  ⟨⟨[("other", Val.str "x")], by decide, by decide⟩,
    c4_missing_field_aborts_chunk (fun t => .ok t) "text" true 10 exactFresh
      [[("other", Val.str "x")]] ⟨[("other", Val.str "x")], by decide, by decide⟩⟩

/-! ### Claim C2: what the per-chunk metrics actually contain -/

theorem exactRun_log_true_error (w : String → Except DErr String) (text_column : String)
    (top_n : ℕ) (st : ExactState) (chunk : List Record) :
    ∃ e, (exactRun w text_column true top_n st chunk).2 = Except.error e := by
  unfold exactRun
  cases hbt : buildTasks text_column chunk with
  | error e => exact ⟨e, by simp [hbt]⟩
  | ok tasks =>
    rcases hel : exactLoop w true st tasks with ⟨st', r⟩
    cases r with
    | error e => exact ⟨e, by simp [hbt, hel]⟩
    | ok kc =>
      obtain ⟨kept, counts⟩ := kc
      exact ⟨.typeErr "save_duplicates", by simp [hbt, hel]⟩

/-- Counterexample to claim C2 as stated: the bloom engine's run returns an
empty metrics dictionary on a concrete chunk, so the metrics record does
not contain the promised records-processed entry (nor any other). -/
theorem c2_counterexample :
    (bloomRun (fun s => s) (fun _ _ => 0) "text" none ⟨8, 2, ∅⟩
        [[("text", Val.str "a")]]).2.2 = [] ∧
    alookup "processed_total"
      ((bloomRun (fun s => s) (fun _ _ => 0) "text" none ⟨8, 2, ∅⟩
        [[("text", Val.str "a")]]).2.2) = none :=
  ⟨rfl, rfl⟩

/-- Claim C2, amended: no engine fulfils the stated metrics contract. The
bloom and hybrid engines return an empty metrics record. The exact engine
returns a populated metrics record (records processed, records kept,
cumulative duplicates, a duplicate ratio of cumulative duplicates over
this chunk's size, and the ranked sample of largest duplicate groups —
no per-chunk duplicate count and no cumulative distinct count) only when
duplicate logging is disabled; with logging enabled (the constructor
default) run raises a TypeError from the miswired duplicate-logging
helpers and returns nothing. The minhash engine computes a metrics record
with processed/chunk/cumulative counters and ratio but logs it
externally, returning only the kept records. -/
theorem c2_amended_metrics :
    (∀ sha ih text_column key st chunk,
      (bloomRun sha ih text_column key st chunk).2.2 = []) ∧
    (∀ (Sig : Type) (msig : Finset String → Sig) hsig ih text_column key n st chunk,
      (hybridRun msig hsig ih text_column key n st chunk).2.2 = []) ∧
    (∀ w text_column log_duplicates top_n st chunk st' K M,
      exactRun w text_column log_duplicates top_n st chunk = (st', .ok (K, M)) →
      alookup "processed_total" M = some (.nat chunk.length) ∧
      alookup "unique_docs" M = some (.nat K.length) ∧
      alookup "duplicates" M = some (.nat st'.global_duplicates) ∧
      alookup "duplicate_ratio" M =
        some (.rat ((st'.global_duplicates : ℚ) / (max 1 chunk.length : ℚ))) ∧
      (alookup "top_duplicates" M).isSome = true) ∧
    (∀ w text_column top_n st chunk,
      ∃ e, (exactRun w text_column true top_n st chunk).2 = Except.error e) ∧
    (∀ (Sig : Type) (st : MinHashState Sig) a b c,
      (alookup "processed_total" (minhashMetrics st a b c)).isSome = true ∧
      (alookup "chunk_size" (minhashMetrics st a b c)).isSome = true ∧
      (alookup "chunk_kept" (minhashMetrics st a b c)).isSome = true ∧
      (alookup "chunk_duplicates" (minhashMetrics st a b c)).isSome = true ∧
      (alookup "global_unique" (minhashMetrics st a b c)).isSome = true ∧
      (alookup "global_duplicates" (minhashMetrics st a b c)).isSome = true ∧
      (alookup "duplicate_ratio" (minhashMetrics st a b c)).isSome = true) := by
  refine ⟨fun _ _ _ _ _ _ => rfl, fun _ _ _ _ _ _ _ _ _ => rfl, ?_,
    fun w text_column top_n st chunk =>
      exactRun_log_true_error w text_column top_n st chunk, ?_⟩
  · intro w text_column log_duplicates top_n st chunk st' K M h
    obtain ⟨tasks, kept, counts, hbt, hel, hK, hM⟩ :=
      exactRun_ok_inv w text_column log_duplicates top_n st chunk st' K M h
    have hlen : K.length = kept.length := by
      rw [hK]; split
      · exact annotate_length kept counts
      · rfl
    subst hM
    exact ⟨by simp [alookup], by rw [hlen]; simp [alookup], by simp [alookup],
      by simp [alookup], by simp [alookup]⟩
  · intro Sig st a b c
    exact ⟨rfl, rfl, rfl, rfl, rfl, rfl, rfl⟩

/-- Witness for the amended C2 at a concrete logging-disabled exact run. -/
theorem c2_witness :
    (exactRun (fun t => .ok t) "text" false 10 exactFresh [[("text", Val.str "a")]] =
      (⟨["a"], [("a", "a")], [("a", [(0, "a")])], 0⟩, .ok
        ([[("text", Val.str "a")]],
         [("processed_total", .nat 1), ("unique_docs", .nat 1), ("duplicates", .nat 0),
          ("duplicate_ratio", .rat ((0 : ℚ) / (max 1 1 : ℚ))), ("top_duplicates", .pairs [])]))) ∧
    alookup "processed_total"
      [("processed_total", MValue.nat 1), ("unique_docs", MValue.nat 1),
       ("duplicates", MValue.nat 0),
       ("duplicate_ratio", MValue.rat ((0 : ℚ) / (max 1 1 : ℚ))),
       ("top_duplicates", MValue.pairs [])] = some (.nat 1) := by
  have heq : exactRun (fun t => .ok t) "text" false 10 exactFresh [[("text", Val.str "a")]] =
      (⟨["a"], [("a", "a")], [("a", [(0, "a")])], 0⟩, .ok
        ([[("text", Val.str "a")]],
         [("processed_total", .nat 1), ("unique_docs", .nat 1), ("duplicates", .nat 0),
          ("duplicate_ratio", .rat ((0 : ℚ) / (max 1 1 : ℚ))),
          ("top_duplicates", .pairs [])])) := by rfl
  exact ⟨heq, (c2_amended_metrics.2.2.1 _ _ _ _ _ _ _ _ _ heq).1⟩

/-! ### Claim C6: kept records form a subsequence of the chunk -/

theorem bloomRunCore_sublist (ih : String → ℕ → ℕ) (fp : Record → String)
    (chunk : List Record) : ∀ st, ((bloomRunCore ih fp st chunk).2).Sublist chunk := by
  induction chunk with
  | nil => intro st; simp [bloomRunCore]
  | cons ex rest ihh =>
    intro st
    simp only [bloomRunCore]
    by_cases hc : st.contains ih (fp ex) = true
    · simp only [if_pos hc]
      exact List.Sublist.cons ex (ihh st)
    · simp only [if_neg hc]
      exact List.Sublist.cons₂ ex (ihh _)

theorem exactLoop_kept_sublist (w : String → Except DErr String) (log_duplicates : Bool)
    (tasks : List (ℕ × Record × String)) :
    ∀ st st' kept counts, exactLoop w log_duplicates st tasks = (st', .ok (kept, counts)) →
      kept.Sublist (tasks.map (fun t => t.2.1)) := by
  induction tasks with
  | nil =>
    intro st st' kept counts h
    simp only [exactLoop, Prod.mk.injEq, Except.ok.injEq] at h
    rw [← h.2.1]
    exact List.nil_sublist []
  | cons t rest ihh =>
    intro st st' kept counts h
    obtain ⟨idx, ex, text⟩ := t
    simp only [exactLoop] at h
    split at h
    · simp at h
    · next hsh hw =>
      split at h
      · split at h
        · simp at h
        · exact List.Sublist.cons ex (ihh _ _ _ _ h)
      · split at h
        · simp at h
        · next st2 kept2 counts2 hel =>
          simp only [Prod.mk.injEq, Except.ok.injEq] at h
          rw [← h.2.1]
          exact List.Sublist.cons₂ ex (ihh _ _ _ _ hel)

theorem minhashLoop_kept_sublist {Sig : Type} (mh : String → Sig)
    (query : List (String × Sig) → Sig → List String) (chunk_id : ℕ) (log_duplicates : Bool)
    (tasks : List (ℕ × Record × String)) :
    ∀ st, ((minhashLoop mh query chunk_id log_duplicates st tasks).2.1).Sublist
      (tasks.map (fun t => t.2.1)) := by
  induction tasks with
  | nil => intro st; simp [minhashLoop]
  | cons t rest ihh =>
    intro st
    obtain ⟨idx, ex, text⟩ := t
    simp only [minhashLoop]
    split
    · exact List.Sublist.cons₂ ex (ihh _)
    · exact List.Sublist.cons ex (ihh _)

theorem map_strip_of_absent (k : String) (l : List Record)
    (h : ∀ x ∈ l, alookup k x = none) : l.map (stripField k) = l := by
  induction l with
  | nil => rfl
  | cons x rest ih =>
    simp only [List.map_cons]
    rw [stripField_of_absent k x (h x (List.mem_cons_self x rest)),
      ih (fun y hy => h y (List.mem_cons_of_mem x hy))]

theorem minhashRun_ok_inv {Sig : Type} (mh : String → Sig)
    (query : List (String × Sig) → Sig → List String) (text_column : String) (chunk_id : ℕ)
    (log_duplicates : Bool) (st : MinHashState Sig) (chunk : List Record)
    (st' : MinHashState Sig) (K : List Record)
    (h : minhashRun mh query text_column chunk_id log_duplicates st chunk = (st', .ok K)) :
    ∃ tasks, buildTasks text_column chunk = .ok tasks ∧
      K = (if log_duplicates &&
              !(minhashLoop mh query chunk_id log_duplicates st tasks).2.2.isEmpty then
            annotate (minhashLoop mh query chunk_id log_duplicates st tasks).2.1
              (minhashLoop mh query chunk_id log_duplicates st tasks).2.2
          else (minhashLoop mh query chunk_id log_duplicates st tasks).2.1) := by
  unfold minhashRun at h
  split at h
  · simp at h
  · next tasks hbt =>
    simp only [Prod.mk.injEq, Except.ok.injEq] at h
    exact ⟨tasks, hbt, h.2.symm⟩

/-- Claim C6: for every engine and every input chunk, the kept records form
a subsequence of the input chunk — each kept record is an element of the
input and the relative order is preserved. For the bloom-index engines
this is a literal subsequence. The minhash engine appends the
duplicate-count annotation to the kept rows, so its kept records are a
subsequence after removing that appended field (the input records not
carrying it themselves); the exact engine's completed runs have logging
disabled and return the input records unannotated, so removing the field
there is a no-op and the same stripped statement covers both. -/
theorem c6_order_preservation :
    (∀ sha ih text_column key st chunk,
      ((bloomRun sha ih text_column key st chunk).2.1).Sublist chunk) ∧
    (∀ (Sig : Type) (msig : Finset String → Sig) hsig ih text_column key n st chunk,
      ((hybridRun msig hsig ih text_column key n st chunk).2.1).Sublist chunk) ∧
    (∀ w text_column log_duplicates top_n st chunk st' K M,
      (∀ ex ∈ chunk, alookup "duplicate_count" ex = none) →
      exactRun w text_column log_duplicates top_n st chunk = (st', .ok (K, M)) →
      (K.map (stripField "duplicate_count")).Sublist chunk) ∧
    (∀ (Sig : Type) (mh : String → Sig) query text_column chunk_id log_duplicates
        (st : MinHashState Sig) chunk st' K,
      (∀ ex ∈ chunk, alookup "duplicate_count" ex = none) →
      minhashRun mh query text_column chunk_id log_duplicates st chunk = (st', .ok K) →
      (K.map (stripField "duplicate_count")).Sublist chunk) := by
  refine ⟨fun sha ih text_column key st chunk => bloomRunCore_sublist ih _ chunk st,
    fun Sig msig hsig ih text_column key n st chunk => bloomRunCore_sublist ih _ chunk st,
    ?_, ?_⟩
  · intro w text_column log_duplicates top_n st chunk st' K M habs h
    obtain ⟨tasks, kept, counts, hbt, hel, hK, hM⟩ :=
      exactRun_ok_inv w text_column log_duplicates top_n st chunk st' K M h
    have hrec : tasks.map (fun t => t.2.1) = chunk :=
      buildTasksFrom_ok_records text_column chunk 0 tasks hbt
    have hkept : kept.Sublist chunk := by
      rw [← hrec]; exact exactLoop_kept_sublist w log_duplicates tasks st st' kept counts hel
    have hstrip : K.map (stripField "duplicate_count") = kept := by
      have hmem : ∀ x ∈ kept, alookup "duplicate_count" x = none :=
        fun x hx => habs x (hkept.mem hx)
      rw [hK]
      split
      · rw [annotate_map_strip, map_strip_of_absent _ _ hmem]
      · rw [map_strip_of_absent _ _ hmem]
    rw [hstrip]
    exact hkept
  · intro Sig mh query text_column chunk_id log_duplicates st chunk st' K habs h
    obtain ⟨tasks, hbt, hK⟩ :=
      minhashRun_ok_inv mh query text_column chunk_id log_duplicates st chunk st' K h
    have hrec : tasks.map (fun t => t.2.1) = chunk :=
      buildTasksFrom_ok_records text_column chunk 0 tasks hbt
    have hkept : ((minhashLoop mh query chunk_id log_duplicates st tasks).2.1).Sublist chunk := by
      rw [← hrec]
      exact minhashLoop_kept_sublist mh query chunk_id log_duplicates tasks st
    have hmem : ∀ x ∈ (minhashLoop mh query chunk_id log_duplicates st tasks).2.1,
        alookup "duplicate_count" x = none :=
      fun x hx => habs x (hkept.mem hx)
    have hstrip : K.map (stripField "duplicate_count") =
        (minhashLoop mh query chunk_id log_duplicates st tasks).2.1 := by
      rw [hK]
      split
      · rw [annotate_map_strip, map_strip_of_absent _ _ hmem]
      · rw [map_strip_of_absent _ _ hmem]
    rw [hstrip]
    exact hkept

/-- Witness for C6 at a concrete logging-disabled exact run. -/
theorem c6_witness :
    (∀ ex ∈ [[("text", Val.str "a")], [("text", Val.str "a")]],
      alookup "duplicate_count" ex = none) ∧
    exactRun (fun t => .ok t) "text" false 10 exactFresh
        [[("text", Val.str "a")], [("text", Val.str "a")]] =
      (⟨["a"], [("a", "a")], [("a", [(0, "a"), (1, "a")])], 1⟩, .ok
        ([[("text", Val.str "a")]],
         [("processed_total", .nat 2), ("unique_docs", .nat 1), ("duplicates", .nat 1),
          ("duplicate_ratio", .rat ((1 : ℚ) / (max 1 2 : ℚ))),
          ("top_duplicates", .pairs [(2, "a")])])) ∧
    (([[("text", Val.str "a")]].map (stripField "duplicate_count")).Sublist
      [[("text", Val.str "a")], [("text", Val.str "a")]]) := by
  have habs : ∀ ex ∈ [[("text", Val.str "a")], [("text", Val.str "a")]],
      alookup "duplicate_count" ex = none := by decide
  have heq : exactRun (fun t => .ok t) "text" false 10 exactFresh
        [[("text", Val.str "a")], [("text", Val.str "a")]] =
      (⟨["a"], [("a", "a")], [("a", [(0, "a"), (1, "a")])], 1⟩, .ok
        ([[("text", Val.str "a")]],
         [("processed_total", .nat 2), ("unique_docs", .nat 1), ("duplicates", .nat 1),
          ("duplicate_ratio", .rat ((1 : ℚ) / (max 1 2 : ℚ))),
          ("top_duplicates", .pairs [(2, "a")])])) := by rfl
  exact ⟨habs, heq, c6_order_preservation.2.2.1 _ _ _ _ _ _ _ _ _ habs heq⟩

/-! ### Claim C8: the duplicate-count annotation path in the exact engine -/

/-- Counterexample to claim C8 as stated: on the chunk [A, A, B] with
duplicate logging enabled, the run never reaches the annotation loop. The
second record takes the duplicate branch, whose call
log_duplicate_pair(..., threshold=1.0) raises TypeError (the bound helper
accepts no threshold keyword), so the run aborts there: B's digest is
absent from the final state — B was never processed — and no kept record
is ever returned or annotated, so B is not annotated duplicate_count = 1. -/
theorem c8_counterexample :
    exactRun (fun t => .ok t) "text" true 10 exactFresh
        [[("text", Val.str "a")], [("text", Val.str "a")], [("text", Val.str "b")]] =
      (⟨["a"], [("a", "a")], [("a", [(0, "a"), (1, "a")])], 1⟩,
        .error (.typeErr "log_duplicate_pair")) ∧
    "b" ∉ (⟨["a"], [("a", "a")], [("a", [(0, "a"), (1, "a")])], 1⟩ :
      ExactState).seen_hashes :=
  ⟨rfl, by decide⟩

/-- Claim C8, amended: the annotation loop that pairs per-processed-record
counts with per-kept-record indices is dead code for any nonzero count.
With duplicate logging enabled a run never returns: every such run raises
a TypeError from the miswired logging helpers — at the first duplicate
record via log_duplicate_pair(threshold=...), or, in a duplicate-free
chunk, at save_duplicates(step=...) after the all-zero annotation — so on
[A, A, B] the run aborts at the second record, B is never processed and
no record is annotated with duplicate_count = 1. With logging disabled
no annotation is applied at all: the kept rows are the input records
themselves (a literal subsequence of the chunk, no field added). -/
theorem c8_amended_logging_typeerror :
    (∀ w text_column top_n st chunk,
      ∃ e, (exactRun w text_column true top_n st chunk).2 = Except.error e) ∧
    (∀ (md5 : String → String) (tA tB : String), md5 tA ≠ md5 tB →
      exactRun (fun t => .ok (md5 t)) "text" true 10 exactFresh
          [[("text", Val.str tA)], [("text", Val.str tA)], [("text", Val.str tB)]] =
        (⟨[md5 tA], [(md5 tA, tA)], [(md5 tA, [(0, tA), (1, tA)])], 1⟩,
          .error (.typeErr "log_duplicate_pair")) ∧
      md5 tB ∉ (⟨[md5 tA], [(md5 tA, tA)], [(md5 tA, [(0, tA), (1, tA)])], 1⟩ :
        ExactState).seen_hashes) ∧
    (∀ w text_column top_n st chunk st' K M,
      exactRun w text_column false top_n st chunk = (st', .ok (K, M)) →
      K.Sublist chunk) := by
  refine ⟨fun w text_column top_n st chunk =>
    exactRun_log_true_error w text_column top_n st chunk, ?_, ?_⟩
  · intro md5 tA tB hne
    constructor
    · simp [exactRun, buildTasks, buildTasksFrom, alookup, exactLoop, exactNovel, exactDup,
        alistSet, alistAppend, alistGetD, Val.toStr, exactFresh]
    · simpa using Ne.symm hne
  · intro w text_column top_n st chunk st' K M h
    obtain ⟨tasks, kept, counts, hbt, hel, hK, hM⟩ :=
      exactRun_ok_inv w text_column false top_n st chunk st' K M h
    have hKk : K = kept := by simpa using hK
    have hrec : tasks.map (fun t => t.2.1) = chunk :=
      buildTasksFrom_ok_records text_column chunk 0 tasks hbt
    rw [hKk, ← hrec]
    exact exactLoop_kept_sublist w false tasks st st' kept counts hel

/-- Witness for the amended C8 at md5 = id and texts "a", "b". -/
theorem c8_witness :
    (id "a" : String) ≠ id "b" ∧
    (exactRun (fun t => .ok (id t)) "text" true 10 exactFresh
        [[("text", Val.str "a")], [("text", Val.str "a")], [("text", Val.str "b")]] =
      (⟨[id "a"], [(id "a", "a")], [(id "a", [(0, "a"), (1, "a")])], 1⟩,
        .error (.typeErr "log_duplicate_pair")) ∧
      (id "b" : String) ∉ (⟨[id "a"], [(id "a", "a")], [(id "a", [(0, "a"), (1, "a")])], 1⟩ :
        ExactState).seen_hashes) :=
  ⟨by decide, c8_amended_logging_typeerror.2.1 id "a" "b" (by decide)⟩

/-! ### Claim C3: a worker failure aborts the rest of the chunk -/

theorem buildTasksFrom_ok_of_fields (text_column : String) (l : List Record) :
    ∀ i, (∀ ex ∈ l, (alookup text_column ex).isSome) →
      ∃ ts, buildTasksFrom text_column i l = .ok ts := by
  induction l with
  | nil => intro i _; exact ⟨[], rfl⟩
  | cons ex rest ih =>
    intro i h
    have hex : (alookup text_column ex).isSome := h ex (List.mem_cons_self ex rest)
    obtain ⟨v, hv⟩ := Option.isSome_iff_exists.mp hex
    obtain ⟨ts, hts⟩ := ih (i + 1) (fun y hy => h y (List.mem_cons_of_mem ex hy))
    refine ⟨(i, ex, v.toStr) :: ts, ?_⟩
    simp only [buildTasksFrom, hv, hts]

theorem buildTasksFrom_append_ok (text_column : String) (l₁ : List Record) :
    ∀ i t₁, buildTasksFrom text_column i l₁ = .ok t₁ → ∀ l₂,
      buildTasksFrom text_column i (l₁ ++ l₂) =
        (match buildTasksFrom text_column (i + l₁.length) l₂ with
         | .error e => .error e
         | .ok t₂ => .ok (t₁ ++ t₂)) := by
  induction l₁ with
  | nil =>
    intro i t₁ h l₂
    simp only [buildTasksFrom, Except.ok.injEq] at h
    subst h
    simp only [List.nil_append, List.length_nil, Nat.add_zero]
    cases hb : buildTasksFrom text_column i l₂ <;> simp [hb]
  | cons ex rest ih =>
    intro i t₁ h l₂
    simp only [buildTasksFrom] at h
    cases hx : alookup text_column ex with
    | none => rw [hx] at h; cases h
    | some v =>
      rw [hx] at h
      cases hr : buildTasksFrom text_column (i + 1) rest with
      | error e => rw [hr] at h; cases h
      | ok ts =>
        rw [hr] at h
        cases h
        have hih := ih (i + 1) ts hr l₂
        have harith : i + 1 + rest.length = i + (rest.length + 1) := by omega
        rw [harith] at hih
        simp only [List.cons_append, List.append_eq, buildTasksFrom, hx, List.length_cons]
        rw [hih]
        cases hb : buildTasksFrom text_column (i + (rest.length + 1)) l₂ <;> simp [hb]

theorem exactLoop_append_ok (w : String → Except DErr String) (d : Bool)
    (ts₁ : List (ℕ × Record × String)) :
    ∀ ts₂ st st₁ k₁ c₁, exactLoop w d st ts₁ = (st₁, .ok (k₁, c₁)) →
      exactLoop w d st (ts₁ ++ ts₂) =
        (match exactLoop w d st₁ ts₂ with
         | (st₂, .error e) => (st₂, .error e)
         | (st₂, .ok (k₂, c₂)) => (st₂, .ok (k₁ ++ k₂, c₁ ++ c₂))) := by
  induction ts₁ with
  | nil =>
    intro ts₂ st st₁ k₁ c₁ h
    simp only [exactLoop, Prod.mk.injEq, Except.ok.injEq] at h
    obtain ⟨h1, h2, h3⟩ := h
    subst h1; rw [← h2, ← h3]
    simp only [List.nil_append]
    rcases hb : exactLoop w d st ts₂ with ⟨st₂, r⟩
    cases r <;> simp
  | cons t rest ih =>
    intro ts₂ st st₁ k₁ c₁ h
    obtain ⟨idx, ex, text⟩ := t
    simp only [exactLoop, List.cons_append, List.append_eq] at h ⊢
    cases hw : w text with
    | error e => rw [hw] at h; simp at h
    | ok hsh =>
      simp only [hw] at h ⊢
      by_cases hs : (st.seen_hashes.contains hsh) = true
      · rw [if_pos hs] at h ⊢
        by_cases hd : d = true
        · rw [if_pos hd] at h
          simp at h
        · rw [if_neg hd] at h ⊢
          exact ih ts₂ _ _ _ _ h
      · rw [if_neg hs] at h ⊢
        rcases hel : exactLoop w d (exactNovel st idx text hsh) rest with ⟨st2, r2⟩
        rw [hel] at h
        cases r2 with
        | error e => simp at h
        | ok kc =>
          obtain ⟨k', c'⟩ := kc
          have h1 := congrArg Prod.fst h
          have h2' := congrArg Prod.snd h
          simp only at h1
          simp only [Except.ok.injEq, Prod.mk.injEq] at h2'
          obtain ⟨h2, h3⟩ := h2'
          subst h1
          rw [ih ts₂ _ _ _ _ hel]
          rcases hb : exactLoop w d st2 ts₂ with ⟨st₂, r⟩
          cases r with
          | error e => simp
          | ok kc₂ =>
            obtain ⟨k₂, c₂⟩ := kc₂
            rw [← h2, ← h3]
            by_cases hd : d = true <;> simp [hd]

/-- Counterexample to claim C3 as stated: with a worker that fails only on
the middle record's text, the whole run raises — the third record is never
processed (its digest is absent from the final index state) and the kept
rows are not returned, contradicting that all remaining records of the
chunk are still processed normally. Only the mutations for the records
applied before the failure survive in the engine state. -/
theorem c3_counterexample :
    exactRun (fun t => if t = "b" then .error (.worker "boom") else .ok t)
        "text" true 10 exactFresh
        [[("text", Val.str "a")], [("text", Val.str "b")], [("text", Val.str "c")]] =
      (⟨["a"], [("a", "a")], [("a", [(0, "a")])], 0⟩, .error (.worker "boom")) ∧
    "c" ∉ (⟨["a"], [("a", "a")], [("a", [(0, "a")])], 0⟩ : ExactState).seen_hashes :=
  ⟨rfl, by decide⟩

/-- Claim C3, amended: a per-record fingerprint failure does not fail that
record only — the raised error propagates out of run and aborts the
remaining records of the chunk (they are not processed, and the chunk's
kept rows are not returned). The index mutations for the records already
applied in order before the failure are kept, exactly as if only the
prefix had been run: the failed run returns the state of running the
prefix alone, together with the worker's error. -/
theorem c3_worker_failure_aborts_rest (w : String → Except DErr String)
    (text_column : String) (log_duplicates : Bool) (top_n : ℕ) (st st₁ : ExactState)
    (pre post : List Record) (bad : Record) (K₁ : List Record) (M₁ : Metrics)
    (v : Val) (e : DErr)
    (hpre : exactRun w text_column log_duplicates top_n st pre = (st₁, .ok (K₁, M₁)))
    (hbadf : alookup text_column bad = some v) (hbadw : w v.toStr = .error e)
    (hpost : ∀ ex ∈ post, (alookup text_column ex).isSome) :
    exactRun w text_column log_duplicates top_n st (pre ++ bad :: post) =
      (st₁, .error e) := by
  obtain ⟨tasks₁, kept₁, counts₁, hbt₁, hel₁, _, _⟩ :=
    exactRun_ok_inv w text_column log_duplicates top_n st pre st₁ K₁ M₁ hpre
  obtain ⟨tpost, hbtp⟩ := buildTasksFrom_ok_of_fields text_column post (pre.length + 1) hpost
  have hbtfull : buildTasks text_column (pre ++ bad :: post) =
      .ok (tasks₁ ++ (pre.length, bad, v.toStr) :: tpost) := by
    unfold buildTasks at hbt₁ ⊢
    rw [buildTasksFrom_append_ok text_column pre 0 tasks₁ hbt₁ (bad :: post)]
    have h0 : (0 : ℕ) + pre.length = pre.length := by omega
    rw [h0]
    simp only [buildTasksFrom, hbadf, hbtp]
  have hstep : exactLoop w log_duplicates st₁ ((pre.length, bad, v.toStr) :: tpost) =
      (st₁, .error e) := by
    simp only [exactLoop, hbadw]
  have hloopfull : exactLoop w log_duplicates st
      (tasks₁ ++ (pre.length, bad, v.toStr) :: tpost) = (st₁, .error e) := by
    rw [exactLoop_append_ok w log_duplicates tasks₁ _ st st₁ kept₁ counts₁ hel₁, hstep]
  unfold exactRun
  simp only [hbtfull, hloopfull]

/-- Witness for the amended C3: a logging-disabled run of the prefix [a],
then the failing record b and the suffix [c]. -/
theorem c3_witness :
    exactRun (fun t => if t = "b" then .error (.worker "boom") else .ok t)
        "text" false 10 exactFresh [[("text", Val.str "a")]] =
      (⟨["a"], [("a", "a")], [("a", [(0, "a")])], 0⟩, .ok
        ([[("text", Val.str "a")]],
         [("processed_total", .nat 1), ("unique_docs", .nat 1), ("duplicates", .nat 0),
          ("duplicate_ratio", .rat ((0 : ℚ) / (max 1 1 : ℚ))),
          ("top_duplicates", .pairs [])])) ∧
    exactRun (fun t => if t = "b" then .error (.worker "boom") else .ok t)
        "text" false 10 exactFresh
        ([[("text", Val.str "a")]] ++ [("text", Val.str "b")] :: [[("text", Val.str "c")]]) =
      (⟨["a"], [("a", "a")], [("a", [(0, "a")])], 0⟩, .error (.worker "boom")) := by
  have hpre : exactRun (fun t => if t = "b" then .error (.worker "boom") else .ok t)
      "text" false 10 exactFresh [[("text", Val.str "a")]] =
      (⟨["a"], [("a", "a")], [("a", [(0, "a")])], 0⟩, .ok
        ([[("text", Val.str "a")]],
         [("processed_total", .nat 1), ("unique_docs", .nat 1), ("duplicates", .nat 0),
          ("duplicate_ratio", .rat ((0 : ℚ) / (max 1 1 : ℚ))),
          ("top_duplicates", .pairs [])])) := by rfl
  refine ⟨hpre, ?_⟩
  exact c3_worker_failure_aborts_rest _ "text" false 10 exactFresh _ _ _ _ _ _
    (Val.str "b") _ hpre (by decide) (by rfl) (by decide)

/-! ### Claim C10: field-less records in the bloom and hybrid engines -/

theorem foldl_insert_mem (g : ℕ → ℕ) (l : List ℕ) :
    ∀ (b : Finset ℕ) (j : ℕ), (j ∈ b ∨ ∃ i ∈ l, g i = j) →
      j ∈ l.foldl (fun acc i => insert (g i) acc) b := by
  induction l with
  | nil =>
    intro b j h
    rcases h with h | ⟨i, hi, _⟩
    · exact h
    · simp at hi
  | cons x rest ih =>
    intro b j h
    simp only [List.foldl_cons]
    apply ih
    rcases h with h | ⟨i, hi, hgi⟩
    · exact Or.inl (Finset.mem_insert_of_mem h)
    · rcases List.mem_cons.mp hi with h0 | h0
      · subst h0
        exact Or.inl (hgi ▸ Finset.mem_insert_self (g i) b)
      · exact Or.inr ⟨i, h0, hgi⟩

theorem bloom_contains_add_self (ih : String → ℕ → ℕ) (st : SimpleBloomFilter) (x : String) :
    (st.add ih x).contains ih x = true := by
  simp only [SimpleBloomFilter.contains, SimpleBloomFilter.add, List.all_eq_true,
    decide_eq_true_eq]
  intro i hi
  exact foldl_insert_mem _ _ _ _ (Or.inr ⟨i, hi, rfl⟩)

theorem bloom_contains_empty_false (ih : String → ℕ → ℕ) (st : SimpleBloomFilter) (f : String)
    (hbits : st.bit_array = ∅) (hhc : 0 < st.hash_count) : st.contains ih f = false := by
  have h0 : (0 : ℕ) ∈ List.range st.hash_count.toNat := List.mem_range.mpr (by omega)
  rw [SimpleBloomFilter.contains, Bool.eq_false_iff]
  intro hall
  rw [List.all_eq_true] at hall
  have := hall 0 h0
  rw [hbits] at this
  simp at this

theorem bloomRunCore_const_rest (ih : String → ℕ → ℕ) (fp : Record → String) (f0 : String)
    (st : SimpleBloomFilter) (rest : List Record) (hc : ∀ ex ∈ rest, fp ex = f0) :
    (bloomRunCore ih fp (st.add ih f0) rest).2 = [] := by
  induction rest with
  | nil => rfl
  | cons ex rest' ih' =>
    simp only [bloomRunCore, hc ex (List.mem_cons_self ex rest'),
      bloom_contains_add_self ih st f0, if_true]
    exact ih' (fun y hy => hc y (List.mem_cons_of_mem ex hy))

/-- Claim C10: in the bloom and hybrid engines a record lacking the
designated text field (and the alternate key, when configured) never makes
the worker raise: its content defaults to the empty string, so all such
field-less records share one fingerprint, the first one encountered is
kept (on a fresh index with at least one hash function) and every later
field-less record is silently discarded as a duplicate of it. -/
theorem c10_fieldless_records_share_fingerprint (sha : String → String) (Sig : Type)
    (msig : Finset String → Sig) (hsig : Sig → String) (ih : String → ℕ → ℕ)
    (text_column : String) (key : Option String) (ngram_size : ℕ)
    (st : SimpleBloomFilter) (c : Record) (rest : List Record)
    (habs : ∀ ex ∈ c :: rest, alookup text_column ex = none ∧
      ∀ k, key = some k → alookup k ex = none)
    (hbits : st.bit_array = ∅) (hhc : 0 < st.hash_count) :
    (∀ ex ∈ c :: rest, bloomWorkerContent text_column key ex = "" ∧
      hybridContent text_column key ex = "") ∧
    (bloomRun sha ih text_column key st (c :: rest)).2.1 = [c] ∧
    (hybridRun msig hsig ih text_column key ngram_size st (c :: rest)).2.1 = [c] := by
  have hcontent : ∀ ex ∈ c :: rest, bloomWorkerContent text_column key ex = "" ∧
      hybridContent text_column key ex = "" := by
    intro ex hex
    obtain ⟨hcol, hkey⟩ := habs ex hex
    constructor
    · cases key with
      | none => simp [bloomWorkerContent, hcol, Val.toStr]
      | some k => simp [bloomWorkerContent, hkey k rfl, hcol, Val.toStr]
    · cases key with
      | none => simp [hybridContent, hcol, Val.toStr]
      | some k => simp [hybridContent, hkey k rfl, Val.toStr]
  have hruns : ∀ fp : Record → String, (∀ ex ∈ c :: rest, fp ex = fp c) →
      (bloomRunCore ih fp st (c :: rest)).2 = [c] := by
    intro fp hfp
    simp only [bloomRunCore,
      bloom_contains_empty_false ih st (fp c) hbits hhc, if_false]
    rw [bloomRunCore_const_rest ih fp (fp c) st rest
      (fun y hy => hfp y (List.mem_cons_of_mem c hy))]
    simp
  refine ⟨hcontent, ?_, ?_⟩
  · apply hruns
    intro ex hex
    rw [(hcontent ex hex).1, (hcontent c (List.mem_cons_self c rest)).1]
  · apply hruns
    intro ex hex
    unfold hybridFingerprint
    rw [(hcontent ex hex).2, (hcontent c (List.mem_cons_self c rest)).2]

/-- Witness for C10 at a concrete fresh index and two field-less records. -/
theorem c10_witness :
    (∀ ex ∈ ([[], [("other", Val.str "x")]] : List Record),
      alookup "text" ex = none ∧ ∀ k, (none : Option String) = some k → alookup k ex = none) ∧
    (⟨8, 2, ∅⟩ : SimpleBloomFilter).bit_array = ∅ ∧
    (0 : ℤ) < (⟨8, 2, ∅⟩ : SimpleBloomFilter).hash_count ∧
    (bloomRun (fun s => s) (fun _ i => i) "text" none ⟨8, 2, ∅⟩
      [[], [("other", Val.str "x")]]).2.1 = [[]] := by
  have habs : ∀ ex ∈ ([[], [("other", Val.str "x")]] : List Record),
      alookup "text" ex = none ∧ ∀ k, (none : Option String) = some k → alookup k ex = none := by
    intro ex hex
    refine ⟨?_, fun k hk => by cases hk⟩
    rcases List.mem_cons.mp hex with h | h
    · subst h; rfl
    · simp at h; subst h; rfl
  exact ⟨habs, rfl, by decide,
    (c10_fieldless_records_share_fingerprint (fun s => s) ℕ (fun s => s.card)
      (fun n => toString n) (fun _ i => i) "text" none 5 ⟨8, 2, ∅⟩ []
      [[("other", Val.str "x")]] habs rfl (by decide)).2.1⟩

/-! ### Claim C9: error rates above one half give zero hash functions -/

theorem truncR_of_nonneg (x : ℝ) (h : 0 ≤ x) : truncR x = ⌊x⌋ := if_pos h

theorem bloom_hash_count_zero (n : ℕ) (p : ℝ) (hn : 0 < n) (hp1 : 1 / 2 < p) (hp2 : p < 1) :
    (SimpleBloomFilter.init n p).hash_count = 0 := by
  have hL : 0 < Real.log 2 := Real.log_pos (by norm_num)
  have hp0 : (0 : ℝ) < p := lt_trans (by norm_num) hp1
  have hlogp_neg : Real.log p < 0 := Real.log_neg hp0 hp2
  have hlogp_gt : -Real.log 2 < Real.log p := by
    have h12 := Real.log_lt_log (by norm_num : (0 : ℝ) < 1 / 2) hp1
    rwa [show (1 / 2 : ℝ) = 2⁻¹ by norm_num, Real.log_inv] at h12
  have hncast : (0 : ℝ) < (n : ℝ) := Nat.cast_pos.mpr hn
  set X := -((n : ℝ) * Real.log p) / Real.log 2 ^ 2 with hXdef
  have hXnn : 0 ≤ X := by
    apply div_nonneg _ (by positivity)
    nlinarith
  have hXlt : X < (n : ℝ) / Real.log 2 := by
    have h1 : -((n : ℝ) * Real.log p) < (n : ℝ) * Real.log 2 := by nlinarith
    have h2 : X < ((n : ℝ) * Real.log 2) / Real.log 2 ^ 2 := by
      rw [hXdef]
      exact div_lt_div_of_pos_right h1 (by positivity)
    have h3 : ((n : ℝ) * Real.log 2) / Real.log 2 ^ 2 = (n : ℝ) / Real.log 2 := by
      rw [sq]
      exact mul_div_mul_right _ _ (ne_of_gt hL)
    rwa [h3] at h2
  have hm : SimpleBloomFilter.getSize n p = ⌊X⌋ := by
    rw [SimpleBloomFilter.getSize, truncR_of_nonneg _ hXnn]
  have hm0 : (0 : ℤ) ≤ ⌊X⌋ := Int.floor_nonneg.mpr hXnn
  have hmleX : ((⌊X⌋ : ℤ) : ℝ) ≤ X := Int.floor_le X
  have hY0 : 0 ≤ ((⌊X⌋ : ℤ) : ℝ) / (n : ℝ) * Real.log 2 := by
    apply mul_nonneg (div_nonneg _ (Nat.cast_nonneg n)) hL.le
    exact_mod_cast hm0
  have hY1 : ((⌊X⌋ : ℤ) : ℝ) / (n : ℝ) * Real.log 2 < 1 := by
    have hmlt : ((⌊X⌋ : ℤ) : ℝ) < (n : ℝ) / Real.log 2 := lt_of_le_of_lt hmleX hXlt
    have hml : ((⌊X⌋ : ℤ) : ℝ) * Real.log 2 < (n : ℝ) := (lt_div_iff hL).mp hmlt
    rw [div_mul_eq_mul_div]
    exact (div_lt_one hncast).mpr hml
  show SimpleBloomFilter.getHashCount (SimpleBloomFilter.getSize n p) n = 0
  rw [hm, SimpleBloomFilter.getHashCount, truncR_of_nonneg _ hY0]
  rw [Int.floor_eq_zero_iff]
  exact ⟨hY0, hY1⟩

theorem bloom_hashcount_zero_contains (ih : String → ℕ → ℕ) (st : SimpleBloomFilter)
    (h : st.hash_count = 0) (item : String) : st.contains ih item = true := by
  simp [SimpleBloomFilter.contains, h]

theorem bloom_hashcount_zero_add (ih : String → ℕ → ℕ) (st : SimpleBloomFilter)
    (h : st.hash_count = 0) (item : String) : st.add ih item = st := by
  obtain ⟨sz, hc, ba⟩ := st
  simp only at h
  subst h
  simp [SimpleBloomFilter.add]

theorem bloomRunCore_hashcount_zero (ih : String → ℕ → ℕ) (fp : Record → String)
    (st : SimpleBloomFilter) (h : st.hash_count = 0) :
    ∀ chunk, (bloomRunCore ih fp st chunk).2 = [] := by
  intro chunk
  induction chunk with
  | nil => rfl
  | cons ex rest ih' =>
    simp only [bloomRunCore, bloom_hashcount_zero_contains ih st h, if_true]
    exact ih'

/-- Claim C9: for every capacity n > 0 and error_rate p with 1/2 < p < 1 —
a value the configuration admits, since it only requires p in (0, 1) — the
integer truncation in SimpleBloomFilter yields hash_count = 0; then
membership tests are vacuously true for every item, add sets no bits, and
BloomFilterDeduplicator.run keeps nothing: every chunk comes back empty,
the very first record included. -/
theorem c9_high_error_rate_drops_everything (n : ℕ) (p : ℝ) (hn : 0 < n)
    (hp1 : 1 / 2 < p) (hp2 : p < 1) :
    (0 < p ∧ p < 1) ∧
    (SimpleBloomFilter.init n p).hash_count = 0 ∧
    (∀ ih item, (SimpleBloomFilter.init n p).contains ih item = true) ∧
    (∀ ih item, (SimpleBloomFilter.init n p).add ih item = SimpleBloomFilter.init n p) ∧
    (∀ sha ih text_column key chunk,
      (bloomRun sha ih text_column key (SimpleBloomFilter.init n p) chunk).2.1 = []) := by
  have h0 := bloom_hash_count_zero n p hn hp1 hp2
  refine ⟨⟨lt_trans (by norm_num) hp1, hp2⟩, h0, ?_, ?_, ?_⟩
  · intro ih item
    exact bloom_hashcount_zero_contains ih _ h0 item
  · intro ih item
    exact bloom_hashcount_zero_add ih _ h0 item
  · intro sha ih text_column key chunk
    exact bloomRunCore_hashcount_zero ih _ _ h0 chunk

/-- Witness for C9 at n = 1, p = 3/4 and a concrete nonempty chunk. -/
theorem c9_witness :
    (0 : ℕ) < 1 ∧ (1 / 2 : ℝ) < 3 / 4 ∧ (3 / 4 : ℝ) < 1 ∧
    (bloomRun (fun s => s) (fun _ _ => 0) "text" none
      (SimpleBloomFilter.init 1 (3 / 4)) [[("text", Val.str "a")]]).2.1 = [] :=
  ⟨by norm_num, by norm_num, by norm_num,
    (c9_high_error_rate_drops_everything 1 (3 / 4) (by norm_num) (by norm_num)
      (by norm_num)).2.2.2.2 (fun s => s) (fun _ _ => 0) "text" none
      [[("text", Val.str "a")]]⟩

/-! ### Claim C1: the Bloom sizing formulas truncate, they do not round -/

/-- Counterexample to claim C1 as stated: at capacity n = 1 and error rate
p = 1/2 (inside the claimed domain), the computed bit-array size is
int(1/ln 2) = 1 while the claimed ceiling formula gives 2, and the
computed hash count is int(ln 2) = 0 while the claimed rounding formula,
applied to the computed size, gives round(ln 2) = 1. -/
theorem c1_counterexample :
    ((0 : ℝ) < 1 / 2 ∧ (1 / 2 : ℝ) < 1) ∧
    (SimpleBloomFilter.init 1 (1 / 2)).size = 1 ∧
    ⌈-(((1 : ℕ) : ℝ) * Real.log (1 / 2)) / Real.log 2 ^ 2⌉ = 2 ∧
    (SimpleBloomFilter.init 1 (1 / 2)).hash_count = 0 ∧
    round (((1 : ℤ) : ℝ) / ((1 : ℕ) : ℝ) * Real.log 2) = 1 := by
  have hL0 : (0 : ℝ) < Real.log 2 := Real.log_pos (by norm_num)
  have hL1 : Real.log 2 < 1 := by
    have := Real.log_two_lt_d9
    linarith
  have hL2 : (1 / 2 : ℝ) < Real.log 2 := by
    have := Real.log_two_gt_d9
    linarith
  have hhalf : Real.log (1 / 2 : ℝ) = -Real.log 2 := by
    rw [show (1 / 2 : ℝ) = 2⁻¹ by norm_num, Real.log_inv]
  have hX : -(((1 : ℕ) : ℝ) * Real.log (1 / 2)) / Real.log 2 ^ 2 = 1 / Real.log 2 := by
    rw [hhalf, Nat.cast_one,
      show -((1 : ℝ) * -Real.log 2) = Real.log 2 by ring, sq, div_mul_eq_div_div,
      div_self (ne_of_gt hL0)]
  have hinv1 : (1 : ℝ) ≤ 1 / Real.log 2 := (one_le_div hL0).mpr hL1.le
  have hinv2 : 1 / Real.log 2 < 2 := by
    rw [div_lt_iff hL0]
    linarith
  have hsize : SimpleBloomFilter.getSize 1 (1 / 2) = 1 := by
    rw [SimpleBloomFilter.getSize, hX, truncR_of_nonneg _ (by positivity),
      Int.floor_eq_iff]
    constructor
    · exact_mod_cast hinv1
    · push_cast
      linarith
  refine ⟨⟨by norm_num, by norm_num⟩, hsize, ?_, ?_, ?_⟩
  · rw [hX, Int.ceil_eq_iff]
    constructor
    · push_cast
      rw [lt_div_iff hL0]
      linarith
    · push_cast
      linarith
  · show SimpleBloomFilter.getHashCount (SimpleBloomFilter.getSize 1 (1 / 2)) 1 = 0
    rw [hsize, SimpleBloomFilter.getHashCount,
      show (((1 : ℤ) : ℝ) / ((1 : ℕ) : ℝ) * Real.log 2) = Real.log 2 by norm_num,
      truncR_of_nonneg _ hL0.le, Int.floor_eq_zero_iff]
    exact ⟨hL0.le, hL1⟩
  · rw [show (((1 : ℤ) : ℝ) / ((1 : ℕ) : ℝ) * Real.log 2) = Real.log 2 by norm_num,
      round_eq, Int.floor_eq_iff]
    constructor
    · push_cast
      linarith
    · push_cast
      linarith

/-- Claim C1, amended: the constructed filter's size and hash count follow
the truncating formulas m = int(-n ln p / (ln 2)^2) (the floor, since the
operand is nonnegative on the valid domain) and k = int((m / n) ln 2), not
the ceiling/rounding ones; repeated construction with the same parameters
yields the same m and k. -/
theorem c1_amended_sizing (n : ℕ) (p : ℝ) (hn : 0 < n) (hp0 : 0 < p) (hp1 : p < 1) :
    (SimpleBloomFilter.init n p).size = ⌊-((n : ℝ) * Real.log p) / Real.log 2 ^ 2⌋ ∧
    (SimpleBloomFilter.init n p).hash_count =
      ⌊((SimpleBloomFilter.init n p).size : ℝ) / (n : ℝ) * Real.log 2⌋ ∧
    (∀ b₁ b₂ : SimpleBloomFilter, b₁ = SimpleBloomFilter.init n p →
      b₂ = SimpleBloomFilter.init n p → b₁.size = b₂.size ∧ b₁.hash_count = b₂.hash_count) := by
  have hL0 : (0 : ℝ) < Real.log 2 := Real.log_pos (by norm_num)
  have hlogp : Real.log p ≤ 0 := Real.log_nonpos hp0.le hp1.le
  have hXnn : 0 ≤ -((n : ℝ) * Real.log p) / Real.log 2 ^ 2 := by
    apply div_nonneg _ (by positivity)
    have : (0 : ℝ) ≤ (n : ℝ) * (-Real.log p) :=
      mul_nonneg (Nat.cast_nonneg n) (by linarith)
    linarith
  have hsize : (SimpleBloomFilter.init n p).size =
      ⌊-((n : ℝ) * Real.log p) / Real.log 2 ^ 2⌋ := by
    show SimpleBloomFilter.getSize n p = _
    rw [SimpleBloomFilter.getSize, truncR_of_nonneg _ hXnn]
  refine ⟨hsize, ?_, fun b₁ b₂ h₁ h₂ => by rw [h₁, h₂]; exact ⟨rfl, rfl⟩⟩
  have hm0 : (0 : ℤ) ≤ (SimpleBloomFilter.init n p).size := by
    rw [hsize]
    exact Int.floor_nonneg.mpr hXnn
  have hY0 : 0 ≤ ((SimpleBloomFilter.init n p).size : ℝ) / (n : ℝ) * Real.log 2 := by
    apply mul_nonneg (div_nonneg _ (Nat.cast_nonneg n)) hL0.le
    exact_mod_cast hm0
  have hgs : SimpleBloomFilter.getSize n p = (SimpleBloomFilter.init n p).size := rfl
  show SimpleBloomFilter.getHashCount (SimpleBloomFilter.getSize n p) n = _
  rw [SimpleBloomFilter.getHashCount, hgs, truncR_of_nonneg _ hY0]

/-- Witness for the amended C1 at n = 1, p = 1/2. -/
theorem c1_witness :
    (0 : ℕ) < 1 ∧ (0 : ℝ) < 1 / 2 ∧ (1 / 2 : ℝ) < 1 ∧
    (SimpleBloomFilter.init 1 (1 / 2)).size =
      ⌊-(((1 : ℕ) : ℝ) * Real.log (1 / 2)) / Real.log 2 ^ 2⌋ :=
  ⟨by norm_num, by norm_num, by norm_num,
    (c1_amended_sizing 1 (1 / 2) (by norm_num) (by norm_num) (by norm_num)).1⟩

/-! ### Claim C5: idempotence machinery for the exact engine -/

theorem exactKeptTasks_subset (md5 : String → String)
    (tasks : List (ℕ × Record × String)) :
    ∀ st t, t ∈ exactKeptTasks md5 st tasks → t ∈ tasks := by
  induction tasks with
  | nil => intro st t ht; simp [exactKeptTasks] at ht
  | cons u rest ih =>
    intro st t ht
    obtain ⟨idx, ex, text⟩ := u
    simp only [exactKeptTasks] at ht
    by_cases hs : (st.seen_hashes.contains (md5 text)) = true
    · rw [if_pos hs] at ht
      exact List.mem_cons_of_mem _ (ih (exactDup st idx text (md5 text)) t ht)
    · rw [if_neg hs] at ht
      rcases List.mem_cons.mp ht with h0 | h0
      · exact h0 ▸ List.mem_cons_self _ _
      · exact List.mem_cons_of_mem _ (ih (exactNovel st idx text (md5 text)) t h0)

theorem exactKeptTasks_fresh (md5 : String → String)
    (tasks : List (ℕ × Record × String)) :
    ∀ st t, t ∈ exactKeptTasks md5 st tasks →
      st.seen_hashes.contains (md5 t.2.2) = false := by
  induction tasks with
  | nil => intro st t ht; simp [exactKeptTasks] at ht
  | cons u rest ih =>
    intro st t ht
    obtain ⟨idx, ex, text⟩ := u
    simp only [exactKeptTasks] at ht
    by_cases hs : (st.seen_hashes.contains (md5 text)) = true
    · rw [if_pos hs] at ht
      exact ih (exactDup st idx text (md5 text)) t ht
    · rw [if_neg hs] at ht
      rcases List.mem_cons.mp ht with h0 | h0
      · subst h0
        exact Bool.eq_false_iff.mpr hs
      · have h1 := ih (exactNovel st idx text (md5 text)) t h0
        simp only [exactNovel, List.contains_cons, Bool.or_eq_false_iff] at h1
        exact h1.2

theorem exactKeptTasks_hashes_nodup (md5 : String → String)
    (tasks : List (ℕ × Record × String)) :
    ∀ st, ((exactKeptTasks md5 st tasks).map (fun t => md5 t.2.2)).Nodup := by
  induction tasks with
  | nil => intro st; simp [exactKeptTasks]
  | cons u rest ih =>
    intro st
    obtain ⟨idx, ex, text⟩ := u
    simp only [exactKeptTasks]
    by_cases hs : (st.seen_hashes.contains (md5 text)) = true
    · rw [if_pos hs]
      exact ih (exactDup st idx text (md5 text))
    · rw [if_neg hs]
      simp only [List.map_cons, List.nodup_cons]
      refine ⟨?_, ih (exactNovel st idx text (md5 text))⟩
      intro hmem
      obtain ⟨t, ht, hteq⟩ := List.mem_map.mp hmem
      have h1 := exactKeptTasks_fresh md5 rest (exactNovel st idx text (md5 text)) t ht
      rw [hteq] at h1
      simp [exactNovel, List.contains_cons] at h1

theorem exactLoop_total_kept (md5 : String → String) (d : Bool)
    (tasks : List (ℕ × Record × String)) :
    ∀ st st' kept counts,
      exactLoop (fun t => .ok (md5 t)) d st tasks = (st', .ok (kept, counts)) →
      kept = (exactKeptTasks md5 st tasks).map (fun t => t.2.1) := by
  induction tasks with
  | nil =>
    intro st st' kept counts h
    simp only [exactLoop, Prod.mk.injEq, Except.ok.injEq] at h
    rw [← h.2.1]
    simp [exactKeptTasks]
  | cons u rest ih =>
    intro st st' kept counts h
    obtain ⟨idx, ex, text⟩ := u
    simp only [exactLoop, exactKeptTasks] at h ⊢
    by_cases hs : (st.seen_hashes.contains (md5 text)) = true
    · rw [if_pos hs] at h ⊢
      by_cases hd : d = true
      · rw [if_pos hd] at h
        simp at h
      · rw [if_neg hd] at h
        exact ih _ _ _ _ h
    · rw [if_neg hs] at h ⊢
      rcases hel : exactLoop (fun t => .ok (md5 t)) d (exactNovel st idx text (md5 text)) rest
        with ⟨st2, r2⟩
      rw [hel] at h
      cases r2 with
      | error e => simp at h
      | ok kc =>
        obtain ⟨k', c'⟩ := kc
        simp only [Prod.mk.injEq, Except.ok.injEq] at h
        rw [← h.2.1]
        simp only [List.map_cons]
        rw [ih _ _ _ _ hel]

theorem exactLoop_fresh_keeps_all (md5 : String → String)
    (tasks : List (ℕ × Record × String)) :
    ∀ st, ((tasks.map (fun t => md5 t.2.2)).Nodup) →
      (∀ t ∈ tasks, st.seen_hashes.contains (md5 t.2.2) = false) →
      (exactLoop (fun t => .ok (md5 t)) false st tasks).2 =
        .ok (tasks.map (fun t => t.2.1), []) := by
  induction tasks with
  | nil => intro st _ _; rfl
  | cons u rest ih =>
    intro st hnd hfr
    obtain ⟨idx, ex, text⟩ := u
    have hs : st.seen_hashes.contains (md5 text) = false :=
      hfr (idx, ex, text) (List.mem_cons_self _ _)
    simp only [List.map_cons, List.nodup_cons] at hnd
    obtain ⟨hnotmem, htl⟩ := hnd
    simp only [exactLoop, hs, Bool.false_eq_true, if_false]
    have hfr' : ∀ t ∈ rest,
        (exactNovel st idx text (md5 text)).seen_hashes.contains (md5 t.2.2) = false := by
      intro t ht
      have h1 := hfr t (List.mem_cons_of_mem _ ht)
      have h2 : md5 t.2.2 ≠ md5 text := by
        intro hc
        exact hnotmem (hc ▸ List.mem_map.mpr ⟨t, ht, rfl⟩)
      simp only [exactNovel, List.contains_cons, Bool.or_eq_false_iff]
      refine ⟨?_, h1⟩
      simpa using h2
    have hrec := ih (exactNovel st idx text (md5 text)) htl hfr'
    rcases hel : exactLoop (fun t => .ok (md5 t)) false
      (exactNovel st idx text (md5 text)) rest with ⟨st2, r2⟩
    rw [hel] at hrec
    simp only at hrec
    rw [hrec]
    simp

theorem buildTasksFrom_wf (text_column : String) (chunk : List Record) :
    ∀ i tasks, buildTasksFrom text_column i chunk = .ok tasks →
      ∀ t ∈ tasks, ∃ v, alookup text_column t.2.1 = some v ∧ t.2.2 = v.toStr := by
  induction chunk with
  | nil =>
    intro i tasks h
    simp only [buildTasksFrom, Except.ok.injEq] at h
    subst h
    intro t ht
    simp at ht
  | cons ex rest ih =>
    intro i tasks h
    simp only [buildTasksFrom] at h
    cases hx : alookup text_column ex with
    | none => rw [hx] at h; cases h
    | some v =>
      rw [hx] at h
      cases hr : buildTasksFrom text_column (i + 1) rest with
      | error e => rw [hr] at h; cases h
      | ok ts =>
        rw [hr] at h
        cases h
        intro t ht
        rcases List.mem_cons.mp ht with h0 | h0
        · subst h0
          exact ⟨v, hx, rfl⟩
        · exact ih (i + 1) ts hr t h0

theorem buildTasksFrom_texts (text_column : String) (chunk : List Record) :
    ∀ i tasks, buildTasksFrom text_column i chunk = .ok tasks →
      tasks.map (fun t => t.2.2) =
        chunk.map (fun r => ((alookup text_column r).getD (.str "")).toStr) := by
  induction chunk with
  | nil =>
    intro i tasks h
    simp only [buildTasksFrom, Except.ok.injEq] at h
    subst h
    rfl
  | cons ex rest ih =>
    intro i tasks h
    simp only [buildTasksFrom] at h
    cases hx : alookup text_column ex with
    | none => rw [hx] at h; cases h
    | some v =>
      rw [hx] at h
      cases hr : buildTasksFrom text_column (i + 1) rest with
      | error e => rw [hr] at h; cases h
      | ok ts =>
        rw [hr] at h
        cases h
        simp only [List.map_cons, hx, Option.getD_some]
        rw [ih (i + 1) ts hr]

theorem annotate_enumFrom_map_invariant {α : Type} (g : Record → α)
    (hg : ∀ v r, g (alistSet "duplicate_count" v r) = g r) (counts : List ℕ)
    (kept : List Record) : ∀ i0,
      ((List.enumFrom i0 kept).map
        (fun p => alistSet "duplicate_count" (Val.nat (counts.getD p.1 0)) p.2)).map g =
        kept.map g := by
  induction kept with
  | nil => intro i0; rfl
  | cons r rest ih =>
    intro i0
    simp only [List.enumFrom_cons, List.map_cons, hg]
    rw [ih (i0 + 1)]

theorem annotate_map_invariant {α : Type} (g : Record → α)
    (hg : ∀ v r, g (alistSet "duplicate_count" v r) = g r) (kept : List Record)
    (counts : List ℕ) : (annotate kept counts).map g = kept.map g := by
  have h := annotate_enumFrom_map_invariant g hg counts kept 0
  simpa [annotate, List.enum] using h

theorem annotate_enumFrom_forall (P : Record → Prop)
    (hP : ∀ v r, P r → P (alistSet "duplicate_count" v r)) (counts : List ℕ)
    (kept : List Record) : ∀ i0, (∀ r ∈ kept, P r) →
      ∀ r ∈ (List.enumFrom i0 kept).map
        (fun p => alistSet "duplicate_count" (Val.nat (counts.getD p.1 0)) p.2), P r := by
  induction kept with
  | nil => intro i0 _ r hr; simp at hr
  | cons x rest ih =>
    intro i0 hall r hr
    simp only [List.enumFrom_cons, List.map_cons, List.mem_cons] at hr
    rcases hr with h0 | h0
    · subst h0
      exact hP _ _ (hall x (List.mem_cons_self x rest))
    · exact ih (i0 + 1) (fun y hy => hall y (List.mem_cons_of_mem x hy)) r h0

theorem annotate_forall (P : Record → Prop)
    (hP : ∀ v r, P r → P (alistSet "duplicate_count" v r)) (kept : List Record)
    (counts : List ℕ) (hall : ∀ r ∈ kept, P r) :
    ∀ r ∈ annotate kept counts, P r := by
  have h := annotate_enumFrom_forall P hP counts kept 0 hall
  simpa [annotate, List.enum] using h

theorem exactRun_ok_build (w : String → Except DErr String) (text_column : String)
    (top_n : ℕ) (st : ExactState) (chunk : List Record)
    (tasks : List (ℕ × Record × String)) (st' : ExactState) (kept : List Record)
    (counts : List ℕ) (hbt : buildTasks text_column chunk = .ok tasks)
    (hel : exactLoop w false st tasks = (st', .ok (kept, counts))) :
    exactRun w text_column false top_n st chunk =
      (st', .ok (kept,
        [("processed_total", .nat chunk.length),
         ("unique_docs", .nat kept.length),
         ("duplicates", .nat st'.global_duplicates),
         ("duplicate_ratio", .rat ((st'.global_duplicates : ℚ) / (max 1 chunk.length : ℚ))),
         ("top_duplicates", .pairs (topDuplicates st'.duplicate_groups top_n))])) := by
  unfold exactRun
  simp only [hbt, hel, Bool.false_eq_true, if_false]

theorem exact_fresh_rerun (md5 : String → String) (text_column : String) (top_n : ℕ)
    (st : ExactState) (chunk : List Record) (st₁ : ExactState) (K : List Record)
    (M : Metrics)
    (h : exactRun (fun t => .ok (md5 t)) text_column false top_n st chunk =
      (st₁, .ok (K, M))) :
    ∃ st₂ M₂,
      exactRun (fun t => .ok (md5 t)) text_column false top_n exactFresh K =
        (st₂, .ok (K, M₂)) := by
  obtain ⟨tasks, kept, counts, hbt, hel, hK, hM⟩ :=
    exactRun_ok_inv (fun t => .ok (md5 t)) text_column false top_n st chunk st₁ K M h
  have hKk : K = kept := by simpa using hK
  rw [← hKk] at hel
  have hkept : K = (exactKeptTasks md5 st tasks).map (fun t => t.2.1) :=
    exactLoop_total_kept md5 false tasks st st₁ K counts hel
  have hwf := buildTasksFrom_wf text_column chunk 0 tasks hbt
  have htexts : K.map (fun r => ((alookup text_column r).getD (.str "")).toStr) =
      (exactKeptTasks md5 st tasks).map (fun t => t.2.2) := by
    rw [hkept, List.map_map]
    apply List.map_congr_left
    intro t ht
    obtain ⟨v, hv1, hv2⟩ := hwf t (exactKeptTasks_subset md5 tasks st t ht)
    simp [Function.comp, hv1, hv2]
  have hKfields : ∀ r ∈ K, (alookup text_column r).isSome := by
    intro r hr
    rw [hkept] at hr
    obtain ⟨t, ht, hteq⟩ := List.mem_map.mp hr
    obtain ⟨v, hv1, _⟩ := hwf t (exactKeptTasks_subset md5 tasks st t ht)
    rw [← hteq, hv1]
    rfl
  obtain ⟨tasksB, hbtB⟩ := buildTasksFrom_ok_of_fields text_column K 0 hKfields
  have hrecB : tasksB.map (fun t => t.2.1) = K :=
    buildTasksFrom_ok_records text_column K 0 tasksB hbtB
  have htexB : tasksB.map (fun t => t.2.2) =
      K.map (fun r => ((alookup text_column r).getD (.str "")).toStr) :=
    buildTasksFrom_texts text_column K 0 tasksB hbtB
  have htexchain : tasksB.map (fun t => t.2.2) =
      (exactKeptTasks md5 st tasks).map (fun t => t.2.2) :=
    htexB.trans htexts
  have hash_eq : tasksB.map (fun t => md5 t.2.2) =
      (exactKeptTasks md5 st tasks).map (fun t => md5 t.2.2) := by
    have h1 : tasksB.map (fun t => md5 t.2.2) = (tasksB.map (fun t => t.2.2)).map md5 := by
      rw [List.map_map]; rfl
    have h2 : (exactKeptTasks md5 st tasks).map (fun t => md5 t.2.2) =
        ((exactKeptTasks md5 st tasks).map (fun t => t.2.2)).map md5 := by
      rw [List.map_map]; rfl
    rw [h1, h2, htexchain]
  have hnd : (tasksB.map (fun t => md5 t.2.2)).Nodup := by
    rw [hash_eq]
    exact exactKeptTasks_hashes_nodup md5 tasks st
  have hfr : ∀ t ∈ tasksB, exactFresh.seen_hashes.contains (md5 t.2.2) = false :=
    fun t _ => rfl
  have hloopB := exactLoop_fresh_keeps_all md5 tasksB exactFresh hnd hfr
  rcases hfull : exactLoop (fun t => .ok (md5 t)) false exactFresh tasksB with ⟨stB, rB⟩
  rw [hfull] at hloopB
  simp only at hloopB
  rw [hloopB] at hfull
  have hrun2 := exactRun_ok_build (fun t => .ok (md5 t)) text_column top_n exactFresh
    K tasksB stB (tasksB.map (fun t => t.2.1)) [] hbtB hfull
  rw [hrecB] at hrun2
  exact ⟨stB, _, hrun2⟩

/-! ### Claim C5: idempotence machinery for the bloom-index engines -/

theorem bloom_contains_mono (ih : String → ℕ → ℕ) (stA stB : SimpleBloomFilter)
    (hsz : stB.size = stA.size) (hhc : stB.hash_count = stA.hash_count)
    (hsub : stB.bit_array ⊆ stA.bit_array) (x : String)
    (h : stB.contains ih x = true) : stA.contains ih x = true := by
  simp only [SimpleBloomFilter.contains, List.all_eq_true, decide_eq_true_eq] at h ⊢
  intro i hi
  have hi' : i ∈ List.range stB.hash_count.toNat := by rw [hhc]; exact hi
  have := h i hi'
  apply hsub
  simpa [SimpleBloomFilter.hashIndex, hsz] using this

theorem foldl_insert_subset (g : ℕ → ℕ) (l : List ℕ) :
    ∀ (b₁ b₂ : Finset ℕ), b₁ ⊆ b₂ →
      l.foldl (fun acc i => insert (g i) acc) b₁ ⊆
        l.foldl (fun acc i => insert (g i) acc) b₂ := by
  induction l with
  | nil => intro b₁ b₂ h; exact h
  | cons x rest ih =>
    intro b₁ b₂ h
    simp only [List.foldl_cons]
    exact ih _ _ (Finset.insert_subset_insert _ h)

theorem bloom_add_mono (ih : String → ℕ → ℕ) (stA stB : SimpleBloomFilter)
    (hsz : stB.size = stA.size) (hhc : stB.hash_count = stA.hash_count)
    (hsub : stB.bit_array ⊆ stA.bit_array) (x : String) :
    (stB.add ih x).bit_array ⊆ (stA.add ih x).bit_array := by
  simp only [SimpleBloomFilter.add]
  rw [show (fun (b : Finset ℕ) i => insert (SimpleBloomFilter.hashIndex ih stB x i) b) =
      (fun (b : Finset ℕ) i => insert (SimpleBloomFilter.hashIndex ih stA x i) b) by
    funext b i
    simp [SimpleBloomFilter.hashIndex, hsz], hhc]
  exact foldl_insert_subset _ _ _ _ hsub

theorem bloomRunCore_fresh_rerun (ih : String → ℕ → ℕ) (fp : Record → String)
    (chunk : List Record) :
    ∀ stA stB, stB.size = stA.size → stB.hash_count = stA.hash_count →
      stB.bit_array ⊆ stA.bit_array →
      (bloomRunCore ih fp stB (bloomRunCore ih fp stA chunk).2).2 =
        (bloomRunCore ih fp stA chunk).2 := by
  induction chunk with
  | nil => intro stA stB _ _ _; rfl
  | cons ex rest ih' =>
    intro stA stB hsz hhc hsub
    by_cases hcA : stA.contains ih (fp ex) = true
    · simp only [bloomRunCore, hcA, if_true]
      exact ih' stA stB hsz hhc hsub
    · have hcB : stB.contains ih (fp ex) = false := by
        rw [Bool.eq_false_iff]
        intro hc
        exact hcA (bloom_contains_mono ih stA stB hsz hhc hsub (fp ex) hc)
      simp only [bloomRunCore, hcA, Bool.false_eq_true, if_false]
      simp only [bloomRunCore, hcB, Bool.false_eq_true, if_false]
      have hrec := ih' (stA.add ih (fp ex)) (stB.add ih (fp ex))
        (by simp [SimpleBloomFilter.add, hsz]) (by simp [SimpleBloomFilter.add, hhc])
        (bloom_add_mono ih stA stB hsz hhc hsub (fp ex))
      rw [hrec]

theorem bloomRun_fresh_rerun (sha : String → String) (ih : String → ℕ → ℕ)
    (text_column : String) (key : Option String) (st : SimpleBloomFilter)
    (chunk : List Record) :
    (bloomRun sha ih text_column key ⟨st.size, st.hash_count, ∅⟩
      (bloomRun sha ih text_column key st chunk).2.1).2.1 =
      (bloomRun sha ih text_column key st chunk).2.1 :=
  bloomRunCore_fresh_rerun ih _ chunk st ⟨st.size, st.hash_count, ∅⟩ rfl rfl
    (Finset.empty_subset _)

theorem hybridRun_fresh_rerun {Sig : Type} (msig : Finset String → Sig)
    (hsig : Sig → String) (ih : String → ℕ → ℕ) (text_column : String)
    (key : Option String) (ngram_size : ℕ) (st : SimpleBloomFilter)
    (chunk : List Record) :
    (hybridRun msig hsig ih text_column key ngram_size ⟨st.size, st.hash_count, ∅⟩
      (hybridRun msig hsig ih text_column key ngram_size st chunk).2.1).2.1 =
      (hybridRun msig hsig ih text_column key ngram_size st chunk).2.1 :=
  bloomRunCore_fresh_rerun ih _ chunk st ⟨st.size, st.hash_count, ∅⟩ rfl rfl
    (Finset.empty_subset _)

/-! ### Claim C5: idempotence machinery for the minhash engine -/

theorem minhashKeptTasks_subset {Sig : Type} (mh : String → Sig)
    (query : List (String × Sig) → Sig → List String) (chunk_id : ℕ)
    (tasks : List (ℕ × Record × String)) :
    ∀ st t, t ∈ minhashKeptTasks mh query chunk_id st tasks → t ∈ tasks := by
  induction tasks with
  | nil => intro st t ht; simp [minhashKeptTasks] at ht
  | cons u rest ih =>
    intro st t ht
    obtain ⟨idx, ex, text⟩ := u
    simp only [minhashKeptTasks] at ht
    cases hq : query st.lsh (mh text) with
    | nil =>
      rw [hq] at ht
      simp only at ht
      rcases List.mem_cons.mp ht with h0 | h0
      · exact h0 ▸ List.mem_cons_self _ _
      · exact List.mem_cons_of_mem _ (ih _ t h0)
    | cons mk ms =>
      rw [hq] at ht
      simp only at ht
      exact List.mem_cons_of_mem _ (ih _ t ht)

theorem minhashLoop_kept_eq {Sig : Type} (mh : String → Sig)
    (query : List (String × Sig) → Sig → List String) (chunk_id : ℕ) (log_duplicates : Bool)
    (tasks : List (ℕ × Record × String)) :
    ∀ st, (minhashLoop mh query chunk_id log_duplicates st tasks).2.1 =
      (minhashKeptTasks mh query chunk_id st tasks).map (fun t => t.2.1) := by
  induction tasks with
  | nil => intro st; rfl
  | cons u rest ih =>
    intro st
    obtain ⟨idx, ex, text⟩ := u
    simp only [minhashLoop, minhashKeptTasks]
    cases hq : query st.lsh (mh text) with
    | nil =>
      simp only [hq, List.map_cons]
      rw [ih]
    | cons mk ms =>
      simp only [hq]
      rw [ih]

theorem minhashLoop_fresh_rerun {Sig : Type} (mh : String → Sig)
    (query : List (String × Sig) → Sig → List String) (chunk_id chunk_id₂ : ℕ)
    (tasks : List (ℕ × Record × String)) :
    ∀ (stA stB : MinHashState Sig) tasksB,
      stB.lsh = stA.lsh → stB.key_counter = stA.key_counter →
      tasksB.map (fun t => t.2.2) =
        (minhashKeptTasks mh query chunk_id stA tasks).map (fun t => t.2.2) →
      (minhashLoop mh query chunk_id₂ true stB tasksB).2 =
        (tasksB.map (fun t => t.2.1), List.replicate tasksB.length 0) := by
  induction tasks with
  | nil =>
    intro stA stB tasksB hlsh hcnt htex
    simp only [minhashKeptTasks, List.map_nil] at htex
    have h0 : tasksB = [] := by
      cases tasksB with
      | nil => rfl
      | cons x xs => simp at htex
    subst h0
    rfl
  | cons u rest ih =>
    intro stA stB tasksB hlsh hcnt htex
    obtain ⟨idx, ex, text⟩ := u
    simp only [minhashKeptTasks] at htex
    cases hq : query stA.lsh (mh text) with
    | cons mk ms =>
      rw [hq] at htex
      simp only at htex
      exact ih
        { stA with
            index :=
              alistSet mk (alistGetD mk [] stA.index ++ [(chunk_id, idx, text)]) stA.index,
            global_duplicates := stA.global_duplicates + 1 }
        stB tasksB hlsh hcnt htex
    | nil =>
      rw [hq] at htex
      simp only [List.map_cons] at htex
      cases tasksB with
      | nil => simp at htex
      | cons tB restB =>
        obtain ⟨idxB, exB, textB⟩ := tB
        simp only [List.map_cons, List.cons.injEq] at htex
        obtain ⟨htB, hrest⟩ := htex
        rw [htB]
        simp only [minhashLoop, hlsh, hcnt, hq]
        have hrec := ih
          { stA with lsh := stA.lsh ++ [(dockey stA.key_counter, mh text)],
                     index := alistSet (dockey stA.key_counter) [(chunk_id, idx, text)]
                       stA.index,
                     key_counter := stA.key_counter + 1 }
          { stB with lsh := stA.lsh ++ [(dockey stA.key_counter, mh text)],
                     index := alistSet (dockey stA.key_counter) [(chunk_id₂, idxB, text)]
                       stB.index,
                     key_counter := stA.key_counter + 1 }
          restB rfl rfl hrest
        rcases hfull : minhashLoop mh query chunk_id₂ true
          { stB with lsh := stA.lsh ++ [(dockey stA.key_counter, mh text)],
                     index := alistSet (dockey stA.key_counter) [(chunk_id₂, idxB, text)]
                       stB.index,
                     key_counter := stA.key_counter + 1 } restB with ⟨stX, kc⟩
        obtain ⟨keptX, countsX⟩ := kc
        rw [hfull] at hrec
        simp only [Prod.mk.injEq] at hrec
        obtain ⟨hk, hc⟩ := hrec
        simp only [hfull, hk, hc]
        simp [List.replicate_succ]

theorem minhashRun_ok_build {Sig : Type} (mh : String → Sig)
    (query : List (String × Sig) → Sig → List String) (text_column : String)
    (chunk_id : ℕ) (log_duplicates : Bool) (st : MinHashState Sig) (chunk : List Record)
    (tasks : List (ℕ × Record × String)) (hbt : buildTasks text_column chunk = .ok tasks) :
    minhashRun mh query text_column chunk_id log_duplicates st chunk =
      ({ (minhashLoop mh query chunk_id log_duplicates st tasks).1 with
          processed_count :=
            (minhashLoop mh query chunk_id log_duplicates st tasks).1.processed_count +
              chunk.length },
       .ok (if (log_duplicates &&
              !(minhashLoop mh query chunk_id log_duplicates st tasks).2.2.isEmpty) = true then
          annotate (minhashLoop mh query chunk_id log_duplicates st tasks).2.1
            (minhashLoop mh query chunk_id log_duplicates st tasks).2.2
        else (minhashLoop mh query chunk_id log_duplicates st tasks).2.1)) := by
  unfold minhashRun
  simp only [hbt]

theorem minhash_fresh_rerun {Sig : Type} (mh : String → Sig)
    (query : List (String × Sig) → Sig → List String) (text_column : String)
    (chunk_id chunk_id₂ : ℕ) (chunk : List Record) (st₁ : MinHashState Sig)
    (K : List Record) (hcol : text_column ≠ "duplicate_count")
    (h : minhashRun mh query text_column chunk_id true (minhashFresh Sig) chunk =
      (st₁, .ok K)) :
    ∃ st₂ K₂,
      minhashRun mh query text_column chunk_id₂ true (minhashFresh Sig) K = (st₂, .ok K₂) ∧
      K₂.map (stripField "duplicate_count") = K.map (stripField "duplicate_count") ∧
      K₂.length = K.length := by
  obtain ⟨tasks, hbt, hK⟩ :=
    minhashRun_ok_inv mh query text_column chunk_id true (minhashFresh Sig) chunk st₁ K h
  set kept := (minhashLoop mh query chunk_id true (minhashFresh Sig) tasks).2.1 with hkeptdef
  have hkept : kept = (minhashKeptTasks mh query chunk_id (minhashFresh Sig) tasks).map
      (fun t => t.2.1) := minhashLoop_kept_eq mh query chunk_id true tasks (minhashFresh Sig)
  have hwf := buildTasksFrom_wf text_column chunk 0 tasks hbt
  have htexts : kept.map (fun r => ((alookup text_column r).getD (.str "")).toStr) =
      (minhashKeptTasks mh query chunk_id (minhashFresh Sig) tasks).map (fun t => t.2.2) := by
    rw [hkept, List.map_map]
    apply List.map_congr_left
    intro t ht
    obtain ⟨v, hv1, hv2⟩ := hwf t
      (minhashKeptTasks_subset mh query chunk_id tasks (minhashFresh Sig) t ht)
    simp [Function.comp, hv1, hv2]
  have hKtex : K.map (fun r => ((alookup text_column r).getD (.str "")).toStr) =
      kept.map (fun r => ((alookup text_column r).getD (.str "")).toStr) := by
    rw [hK]
    split
    · exact annotate_map_invariant _ (fun v r => by
        rw [alookup_alistSet_ne "duplicate_count" text_column v r hcol]) kept _
    · rfl
  have hKfields : ∀ r ∈ K, (alookup text_column r).isSome := by
    have hkf : ∀ r ∈ kept, (alookup text_column r).isSome := by
      intro r hr
      rw [hkept] at hr
      obtain ⟨t, ht, hteq⟩ := List.mem_map.mp hr
      obtain ⟨v, hv1, _⟩ := hwf t
        (minhashKeptTasks_subset mh query chunk_id tasks (minhashFresh Sig) t ht)
      rw [← hteq, hv1]
      rfl
    rw [hK]
    split
    · exact annotate_forall _ (fun v r hr => by
        rw [alookup_alistSet_ne "duplicate_count" text_column v r hcol]; exact hr) kept _ hkf
    · exact hkf
  obtain ⟨tasksB, hbtB⟩ := buildTasksFrom_ok_of_fields text_column K 0 hKfields
  have hrecB : tasksB.map (fun t => t.2.1) = K :=
    buildTasksFrom_ok_records text_column K 0 tasksB hbtB
  have htexB : tasksB.map (fun t => t.2.2) =
      K.map (fun r => ((alookup text_column r).getD (.str "")).toStr) :=
    buildTasksFrom_texts text_column K 0 tasksB hbtB
  have htexchain : tasksB.map (fun t => t.2.2) =
      (minhashKeptTasks mh query chunk_id (minhashFresh Sig) tasks).map (fun t => t.2.2) :=
    htexB.trans (hKtex.trans htexts)
  have hloopB := minhashLoop_fresh_rerun mh query chunk_id chunk_id₂ tasks (minhashFresh Sig)
    (minhashFresh Sig) tasksB rfl rfl htexchain
  have hrun2 := minhashRun_ok_build mh query text_column chunk_id₂ true (minhashFresh Sig)
    K tasksB hbtB
  rcases hfull : minhashLoop mh query chunk_id₂ true (minhashFresh Sig) tasksB with ⟨stX, kc⟩
  obtain ⟨keptX, countsX⟩ := kc
  rw [hfull] at hloopB hrun2
  simp only [Prod.mk.injEq] at hloopB
  obtain ⟨hkX, hcX⟩ := hloopB
  rw [hkX, hcX, hrecB] at hrun2
  refine ⟨_, _, hrun2, ?_, ?_⟩
  · split
    · rw [annotate_map_strip]
    · rfl
  · split
    · rw [annotate_length]
    · rfl

/-- Counterexample to claim C5 as stated: running the kept output of a
chunk back through the same exact-engine instance (duplicate logging
disabled, so that the run completes at all) removes every record — the
records' digests are already in the persistent index (that is exactly the
cross-chunk global deduplication the engine is built for), so the second
pass returns the empty list, not K unchanged. -/
theorem c5_counterexample :
    exactRun (fun t => .ok t) "text" false 10 exactFresh [[("text", Val.str "a")]] =
      (⟨["a"], [("a", "a")], [("a", [(0, "a")])], 0⟩, .ok
        ([[("text", Val.str "a")]],
         [("processed_total", .nat 1), ("unique_docs", .nat 1), ("duplicates", .nat 0),
          ("duplicate_ratio", .rat ((0 : ℚ) / (max 1 1 : ℚ))),
          ("top_duplicates", .pairs [])])) ∧
    exactRun (fun t => .ok t) "text" false 10 ⟨["a"], [("a", "a")], [("a", [(0, "a")])], 0⟩
        [[("text", Val.str "a")]] =
      (⟨["a"], [("a", "a")], [("a", [(0, "a"), (0, "a")])], 1⟩, .ok
        (([] : List Record),
         [("processed_total", .nat 1), ("unique_docs", .nat 0), ("duplicates", .nat 1),
          ("duplicate_ratio", .rat ((1 : ℚ) / (max 1 1 : ℚ))),
          ("top_duplicates", .pairs [(2, "a")])])) ∧
    ([] : List Record) ≠ [[("text", Val.str "a")]] :=
  ⟨rfl, rfl, by decide⟩

/-- Claim C5, amended: running the kept output K of a chunk back through
the same engine instance removes the records again (the index is global
across calls); the idempotence property holds for a freshly constructed
engine instance of the same configuration instead: running K through a
fresh engine keeps every record. For the exact engine this is stated for
runs with duplicate logging disabled — with logging enabled run raises a
TypeError from the miswired logging helpers and returns nothing — and
then the fresh rerun returns K exactly unchanged, whatever state the
first instance had; for the bloom and hybrid engines a fresh
same-parameter index re-keeps every kept record; for the minhash engine
the rerun returns K unchanged up to the appended duplicate-count
annotation, when the first run was the instance's first chunk. -/
theorem c5_fresh_instance_idempotence :
    (∀ (md5 : String → String) text_column top_n st chunk st₁ K M,
      exactRun (fun t => .ok (md5 t)) text_column false top_n st chunk = (st₁, .ok (K, M)) →
      ∃ st₂ M₂,
        exactRun (fun t => .ok (md5 t)) text_column false top_n exactFresh K =
          (st₂, .ok (K, M₂))) ∧
    (∀ sha ih text_column key st chunk,
      (bloomRun sha ih text_column key ⟨st.size, st.hash_count, ∅⟩
        (bloomRun sha ih text_column key st chunk).2.1).2.1 =
        (bloomRun sha ih text_column key st chunk).2.1) ∧
    (∀ (Sig : Type) (msig : Finset String → Sig) hsig ih text_column key ngram_size st chunk,
      (hybridRun msig hsig ih text_column key ngram_size ⟨st.size, st.hash_count, ∅⟩
        (hybridRun msig hsig ih text_column key ngram_size st chunk).2.1).2.1 =
        (hybridRun msig hsig ih text_column key ngram_size st chunk).2.1) ∧
    (∀ (Sig : Type) (mh : String → Sig) query text_column chunk_id chunk_id₂ chunk st₁ K,
      text_column ≠ "duplicate_count" →
      minhashRun mh query text_column chunk_id true (minhashFresh Sig) chunk =
        (st₁, .ok K) →
      ∃ st₂ K₂,
        minhashRun mh query text_column chunk_id₂ true (minhashFresh Sig) K =
          (st₂, .ok K₂) ∧
        K₂.map (stripField "duplicate_count") = K.map (stripField "duplicate_count") ∧
        K₂.length = K.length) :=
  ⟨fun md5 text_column top_n st chunk st₁ K M h =>
      exact_fresh_rerun md5 text_column top_n st chunk st₁ K M h,
   fun sha ih text_column key st chunk =>
      bloomRun_fresh_rerun sha ih text_column key st chunk,
   fun Sig msig hsig ih text_column key ngram_size st chunk =>
      hybridRun_fresh_rerun msig hsig ih text_column key ngram_size st chunk,
   fun Sig mh query text_column chunk_id chunk_id₂ chunk st₁ K hcol h =>
      minhash_fresh_rerun mh query text_column chunk_id chunk_id₂ chunk st₁ K hcol h⟩

/-- Witness for the amended C5 at a concrete logging-disabled exact run. -/
theorem c5_witness :
    exactRun (fun t => .ok (id t)) "text" false 10 exactFresh [[("text", Val.str "a")]] =
      (⟨["a"], [("a", "a")], [("a", [(0, "a")])], 0⟩, .ok
        ([[("text", Val.str "a")]],
         [("processed_total", .nat 1), ("unique_docs", .nat 1), ("duplicates", .nat 0),
          ("duplicate_ratio", .rat ((0 : ℚ) / (max 1 1 : ℚ))),
          ("top_duplicates", .pairs [])])) ∧
    (∃ st₂ M₂,
      exactRun (fun t => .ok (id t)) "text" false 10 exactFresh
          [[("text", Val.str "a")]] =
        (st₂, .ok ([[("text", Val.str "a")]], M₂))) := by
  have h1 : exactRun (fun t => .ok (id t)) "text" false 10 exactFresh
      [[("text", Val.str "a")]] =
      (⟨["a"], [("a", "a")], [("a", [(0, "a")])], 0⟩, .ok
        ([[("text", Val.str "a")]],
         [("processed_total", .nat 1), ("unique_docs", .nat 1), ("duplicates", .nat 0),
          ("duplicate_ratio", .rat ((0 : ℚ) / (max 1 1 : ℚ))),
          ("top_duplicates", .pairs [])])) := by rfl
  exact ⟨h1,
    c5_fresh_instance_idempotence.1 id "text" 10 exactFresh [[("text", Val.str "a")]]
      _ _ _ h1⟩

/-! ### Claim C7: group bookkeeping lemmas -/

theorem alookup_alistAppend_self {α : Type} (k : String) (x : α) :
    ∀ l, alookup k (alistAppend k x l) = some (alistGetD k [] l ++ [x]) := by
  intro l
  induction l with
  | nil => simp [alistAppend, alookup, alistGetD]
  | cons p rest ih =>
    obtain ⟨k', g⟩ := p
    by_cases h : k' = k
    · subst h
      simp [alistAppend, alookup, alistGetD]
    · simp only [alistAppend, if_neg h, alookup, if_neg h, alistGetD]
      simpa [alistGetD] using ih

theorem alookup_alistAppend_ne {α : Type} (k k' : String) (x : α) (h : k' ≠ k) :
    ∀ l, alookup k' (alistAppend k x l) = alookup k' l := by
  intro l
  induction l with
  | nil =>
    simp only [alistAppend, alookup]
    rw [if_neg (fun hh => h hh.symm)]
  | cons p rest ih =>
    obtain ⟨k0, g⟩ := p
    by_cases h0 : k0 = k
    · subst h0
      simp only [alistAppend, if_pos rfl, alookup]
      rw [if_neg (fun hh => h hh.symm), if_neg (fun hh => h hh.symm)]
    · simp only [alistAppend, if_neg h0, alookup]
      by_cases h1 : k0 = k'
      · simp [h1]
      · simp [h1, ih]

theorem groupMult_cons (chunk_id idx : ℕ) (k : String) (g : List (ℕ × ℕ × String))
    (rest : List (String × List (ℕ × ℕ × String))) :
    groupMult chunk_id idx ((k, g) :: rest) =
      (g.filter (fun e => e.1 = chunk_id ∧ e.2.1 = idx)).length +
        groupMult chunk_id idx rest := by
  simp [groupMult]

theorem groupMult_alistAppend (chunk_id idx : ℕ) (k : String) (e : ℕ × ℕ × String) :
    ∀ index, groupMult chunk_id idx (alistAppend k e index) =
      groupMult chunk_id idx index +
        (if e.1 = chunk_id ∧ e.2.1 = idx then 1 else 0) := by
  intro index
  induction index with
  | nil =>
    simp only [alistAppend, groupMult, List.map_cons, List.map_nil, List.sum_cons,
      List.sum_nil]
    split <;> rename_i hsp
    · simp [List.filter, hsp]
    · simp [List.filter, hsp]
  | cons p rest ih =>
    obtain ⟨k', g⟩ := p
    by_cases h : k' = k
    · subst h
      have hone : ([e].filter (fun e => e.1 = chunk_id ∧ e.2.1 = idx)).length =
          (if e.1 = chunk_id ∧ e.2.1 = idx then 1 else 0) := by
        split <;> rename_i hsp <;> simp [List.filter, hsp]
      simp only [alistAppend, eq_self_iff_true, if_true, groupMult_cons, List.filter_append,
        List.length_append, hone]
      omega
    · simp only [alistAppend, if_neg h, groupMult_cons, ih]
      omega

theorem groupMult_alistSet_fresh (chunk_id idx : ℕ) (k : String) (e : ℕ × ℕ × String) :
    ∀ index, alookup k index = none →
      groupMult chunk_id idx (alistSet k [e] index) =
        groupMult chunk_id idx index +
          (if e.1 = chunk_id ∧ e.2.1 = idx then 1 else 0) := by
  intro index
  induction index with
  | nil =>
    intro _
    simp only [alistSet, groupMult, List.map_cons, List.map_nil, List.sum_cons, List.sum_nil]
    split <;> rename_i hsp
    · simp [List.filter, hsp]
    · simp [List.filter, hsp]
  | cons p rest ih =>
    intro h
    obtain ⟨k', g⟩ := p
    by_cases h0 : k' = k
    · subst h0
      simp [alookup] at h
    · simp only [alookup, if_neg h0] at h
      simp only [alistSet, if_neg h0, groupMult_cons, ih h]
      omega

theorem groupMult_zero (chunk_id idx : ℕ) :
    ∀ index, (∀ kg ∈ index, ∀ e ∈ kg.2, e.1 ≠ chunk_id) →
      groupMult chunk_id idx index = 0 := by
  intro index
  induction index with
  | nil => intro _; rfl
  | cons p rest ih =>
    intro h
    obtain ⟨k, g⟩ := p
    rw [groupMult_cons]
    have h1 : g.filter (fun e => e.1 = chunk_id ∧ e.2.1 = idx) = [] := by
      rw [List.filter_eq_nil]
      intro e he
      have := h (k, g) (List.mem_cons_self _ _) e he
      simp [this]
    rw [h1, ih (fun kg hkg => h kg (List.mem_cons_of_mem _ hkg))]
    rfl

theorem range'_filter_zero (i : ℕ) :
    ∀ n i0, i < i0 → ((List.range' i0 n).filter (fun x => x = i)).length = 0 := by
  intro n
  induction n with
  | zero => intro i0 _; rfl
  | succ m ih =>
    intro i0 hlt
    rw [List.range'_succ]
    have h0 : ¬(i0 = i) := by omega
    simp only [List.filter_cons, h0]
    simp only [decide_eq_true_eq, if_neg h0]
    exact ih (i0 + 1) (by omega)

theorem range'_filter_one (i : ℕ) :
    ∀ n i0, i0 ≤ i → i < i0 + n → ((List.range' i0 n).filter (fun x => x = i)).length = 1 := by
  intro n
  induction n with
  | zero => intro i0 h1 h2; omega
  | succ m ih =>
    intro i0 h1 h2
    rw [List.range'_succ]
    by_cases h0 : i0 = i
    · subst h0
      simp only [List.filter_cons, decide_eq_true_eq, if_pos rfl, List.length_cons]
      simp [range'_filter_zero i0 m (i0 + 1) (by omega)]
    · simp only [List.filter_cons, decide_eq_true_eq, if_neg h0]
      exact ih (i0 + 1) (by omega) (by omega)

/-! ### Claim C7: injectivity of the synthetic bucket keys -/

theorem digitChar_inj_lt :
    ∀ a, a < 10 → ∀ b, b < 10 → Nat.digitChar a = Nat.digitChar b → a = b := by
  decide

theorem map_digitChar_inj :
    ∀ (l₁ l₂ : List ℕ), (∀ x ∈ l₁, x < 10) → (∀ x ∈ l₂, x < 10) →
      l₁.map Nat.digitChar = l₂.map Nat.digitChar → l₁ = l₂ := by
  intro l₁
  induction l₁ with
  | nil =>
    intro l₂ _ _ h
    cases l₂ with
    | nil => rfl
    | cons y ys => simp at h
  | cons x xs ih =>
    intro l₂ h₁ h₂ h
    cases l₂ with
    | nil => simp at h
    | cons y ys =>
      simp only [List.map_cons, List.cons.injEq] at h
      have hx := h₁ x (List.mem_cons_self x xs)
      have hy := h₂ y (List.mem_cons_self y ys)
      rw [digitChar_inj_lt x hx y hy h.1,
        ih ys (fun z hz => h₁ z (List.mem_cons_of_mem x hz))
          (fun z hz => h₂ z (List.mem_cons_of_mem y hz)) h.2]

theorem decimalStr_ne_zero (b : ℕ) (hb : b ≠ 0) : decimalStr b ≠ "0" := by
  intro h
  rw [decimalStr, if_neg hb] at h
  have hdata : ((Nat.digits 10 b).reverse.map Nat.digitChar) = ['0'] := congrArg String.data h
  rcases hrev : (Nat.digits 10 b).reverse with _ | ⟨x, xs⟩
  · rw [hrev] at hdata; simp at hdata
  · rw [hrev] at hdata
    simp only [List.map_cons, List.cons.injEq] at hdata
    have hxs : xs = [] := by
      have := hdata.2
      cases xs with
      | nil => rfl
      | cons z zs => simp at this
    subst hxs
    have hx10 : x < 10 := by
      have hxmem : x ∈ Nat.digits 10 b := by
        rw [← List.mem_reverse, hrev]
        exact List.mem_cons_self x []
      exact Nat.digits_lt_base (by norm_num) hxmem
    have hx0 : x = 0 := digitChar_inj_lt x hx10 0 (by norm_num) hdata.1
    subst hx0
    have hdig : Nat.digits 10 b = [0] := by
      rw [← List.reverse_reverse (Nat.digits 10 b), hrev]
      rfl
    have h1 := (Nat.ofDigits_digits 10 b).symm
    rw [hdig] at h1
    simp only [Nat.ofDigits] at h1
    exact hb (by omega)

theorem decimalStr_injective : Function.Injective decimalStr := by
  intro a b h
  by_cases ha : a = 0 <;> by_cases hb : b = 0
  · rw [ha, hb]
  · exact absurd h.symm (by rw [ha]; exact fun hh => decimalStr_ne_zero b hb hh)
  · exact absurd h (by rw [hb]; exact fun hh => decimalStr_ne_zero a ha hh)
  · rw [decimalStr, if_neg ha, decimalStr, if_neg hb] at h
    have hdata : ((Nat.digits 10 a).reverse.map Nat.digitChar) =
        ((Nat.digits 10 b).reverse.map Nat.digitChar) := congrArg String.data h
    have hbnd : ∀ (c : ℕ), ∀ x ∈ (Nat.digits 10 c).reverse, x < 10 := by
      intro c x hx
      exact Nat.digits_lt_base (by norm_num) (List.mem_reverse.mp hx)
    have hrev := map_digitChar_inj _ _ (hbnd a) (hbnd b) hdata
    have hdig : Nat.digits 10 a = Nat.digits 10 b := by
      rw [← List.reverse_reverse (Nat.digits 10 a), hrev, List.reverse_reverse]
    calc a = Nat.ofDigits 10 (Nat.digits 10 a) := (Nat.ofDigits_digits 10 a).symm
    _ = Nat.ofDigits 10 (Nat.digits 10 b) := by rw [hdig]
    _ = b := Nat.ofDigits_digits 10 b

theorem dockey_injective : Function.Injective dockey := by
  intro a b h
  have hd : ("doc_" ++ decimalStr a).data = ("doc_" ++ decimalStr b).data :=
    congrArg String.data h
  rw [String.data_append, String.data_append] at hd
  have hdd := List.append_cancel_left hd
  exact decimalStr_injective (String.ext hdd)

theorem dockey_ne (a b : ℕ) (h : a ≠ b) : dockey a ≠ dockey b :=
  fun hh => h (dockey_injective hh)

/-! ### Claim C7: loop invariants of the LSH group table -/

theorem alookup_alistSet_isSome {α : Type} (k k' : String) (v : α)
    (l : List (String × α)) (h : (alookup k' l).isSome) :
    (alookup k' (alistSet k v l)).isSome := by
  by_cases h0 : k' = k
  · subst h0
    rw [alookup_alistSet_self]
    rfl
  · rw [alookup_alistSet_ne k k' v l h0]
    exact h

theorem alistAppend_eq_set {α : Type} (k : String) (x : α) :
    ∀ l, alistAppend k x l = alistSet k (alistGetD k [] l ++ [x]) l := by
  intro l
  induction l with
  | nil => simp [alistAppend, alistSet, alistGetD, alookup]
  | cons p rest ih =>
    obtain ⟨k', g⟩ := p
    by_cases h : k' = k
    · subst h
      simp [alistAppend, alistSet, alistGetD, alookup]
    · simp only [alistAppend, if_neg h, alistSet, if_neg h, List.cons.injEq, true_and]
      rw [ih]
      congr 1
      simp [alistGetD, alookup, h]

theorem minhashLoop_counter {Sig : Type} (mh : String → Sig)
    (query : List (String × Sig) → Sig → List String) (chunk_id : ℕ) (log_duplicates : Bool)
    (tasks : List (ℕ × Record × String)) :
    ∀ st, (minhashLoop mh query chunk_id log_duplicates st tasks).1.key_counter =
      st.key_counter + (minhashLoop mh query chunk_id log_duplicates st tasks).2.1.length := by
  induction tasks with
  | nil => intro st; rfl
  | cons u rest ih =>
    intro st
    obtain ⟨idx, ex, text⟩ := u
    simp only [minhashLoop]
    cases hq : query st.lsh (mh text) with
    | nil =>
      simp only [hq, List.length_cons]
      rw [ih]
      simp only [List.length_cons]
      omega
    | cons mk ms =>
      simp only [hq]
      rw [ih]

theorem minhashLoop_invariants {Sig : Type} (mh : String → Sig)
    (query : List (String × Sig) → Sig → List String) (chunk_id : ℕ) (log_duplicates : Bool)
    (Hq : ∀ lsh sig k, k ∈ query lsh sig → ∃ s, (k, s) ∈ lsh)
    (tasks : List (ℕ × Record × String)) :
    ∀ st : MinHashState Sig,
      (∀ j, st.key_counter ≤ j → alookup (dockey j) st.index = none) →
      (∀ ky sg, (ky, sg) ∈ st.lsh → (alookup ky st.index).isSome) →
      (∀ i, groupMult chunk_id i
          (minhashLoop mh query chunk_id log_duplicates st tasks).1.index =
        groupMult chunk_id i st.index + (tasks.filter (fun t => t.1 = i)).length) ∧
      (∀ j, (minhashLoop mh query chunk_id log_duplicates st tasks).1.key_counter ≤ j →
        alookup (dockey j)
          (minhashLoop mh query chunk_id log_duplicates st tasks).1.index = none) ∧
      (∀ ky sg, (ky, sg) ∈ (minhashLoop mh query chunk_id log_duplicates st tasks).1.lsh →
        (alookup ky (minhashLoop mh query chunk_id log_duplicates st tasks).1.index).isSome) := by
  induction tasks with
  | nil =>
    intro st Hkeys Ilsh
    exact ⟨fun i => by simp [minhashLoop], Hkeys, Ilsh⟩
  | cons u rest ih =>
    intro st Hkeys Ilsh
    obtain ⟨idx, ex, text⟩ := u
    simp only [minhashLoop]
    cases hq : query st.lsh (mh text) with
    | nil =>
      simp only [hq]
      have hfresh : alookup (dockey st.key_counter) st.index = none :=
        Hkeys st.key_counter (le_refl _)
      have Hkeys' : ∀ j, st.key_counter + 1 ≤ j →
          alookup (dockey j)
            (alistSet (dockey st.key_counter) [(chunk_id, idx, text)] st.index) = none := by
        intro j hj
        rw [alookup_alistSet_ne (dockey st.key_counter) (dockey j) _ _
          (dockey_ne j st.key_counter (by omega))]
        exact Hkeys j (by omega)
      have Ilsh' : ∀ ky sg, (ky, sg) ∈ st.lsh ++ [(dockey st.key_counter, mh text)] →
          (alookup ky
            (alistSet (dockey st.key_counter) [(chunk_id, idx, text)] st.index)).isSome := by
        intro ky sg hmem
        rcases List.mem_append.mp hmem with hm | hm
        · exact alookup_alistSet_isSome _ _ _ _ (Ilsh ky sg hm)
        · simp only [List.mem_singleton, Prod.mk.injEq] at hm
          rw [hm.1, alookup_alistSet_self]
          rfl
      obtain ⟨ih1, ih2, ih3⟩ := ih
        { st with lsh := st.lsh ++ [(dockey st.key_counter, mh text)],
                  index := alistSet (dockey st.key_counter) [(chunk_id, idx, text)] st.index,
                  key_counter := st.key_counter + 1 } Hkeys' Ilsh'
      refine ⟨?_, ih2, ih3⟩
      intro i
      rw [ih1 i, groupMult_alistSet_fresh chunk_id i (dockey st.key_counter)
        (chunk_id, idx, text) st.index hfresh]
      by_cases hii : idx = i
      · subst hii
        simp [List.filter_cons]
        try omega
      · simp [List.filter_cons, hii]
        try omega
    | cons mk ms =>
      simp only [hq]
      have hmk : (alookup mk st.index).isSome := by
        obtain ⟨s, hs⟩ := Hq st.lsh (mh text) mk (by rw [hq]; exact List.mem_cons_self _ _)
        exact Ilsh mk s hs
      have hne : ∀ j, st.key_counter ≤ j → dockey j ≠ mk := by
        intro j hj hh
        rw [← hh] at hmk
        rw [Hkeys j hj] at hmk
        cases hmk
      have hsetapp :
          alistSet mk (alistGetD mk [] st.index ++ [(chunk_id, idx, text)]) st.index =
            alistAppend mk (chunk_id, idx, text) st.index :=
        (alistAppend_eq_set mk (chunk_id, idx, text) st.index).symm
      have Hkeys' : ∀ j, st.key_counter ≤ j →
          alookup (dockey j)
            (alistSet mk (alistGetD mk [] st.index ++ [(chunk_id, idx, text)]) st.index) =
            none := by
        intro j hj
        rw [alookup_alistSet_ne mk (dockey j) _ _ (hne j hj)]
        exact Hkeys j hj
      have Ilsh' : ∀ ky sg, (ky, sg) ∈ st.lsh →
          (alookup ky
            (alistSet mk (alistGetD mk [] st.index ++ [(chunk_id, idx, text)])
              st.index)).isSome :=
        fun ky sg hm => alookup_alistSet_isSome _ _ _ _ (Ilsh ky sg hm)
      obtain ⟨ih1, ih2, ih3⟩ := ih
        { st with
            index := alistSet mk (alistGetD mk [] st.index ++ [(chunk_id, idx, text)])
              st.index,
            global_duplicates := st.global_duplicates + 1 } Hkeys' Ilsh'
      refine ⟨?_, ih2, ih3⟩
      intro i
      rw [ih1 i]
      have hmult : groupMult chunk_id i
          (alistSet mk (alistGetD mk [] st.index ++ [(chunk_id, idx, text)]) st.index) =
          groupMult chunk_id i st.index +
            (if (chunk_id, idx, text).1 = chunk_id ∧ (chunk_id, idx, text).2.1 = i
             then 1 else 0) := by
        rw [hsetapp]
        exact groupMult_alistAppend chunk_id i mk (chunk_id, idx, text) st.index
      rw [hmult]
      by_cases hii : idx = i
      · subst hii
        simp [List.filter_cons]
        try omega
      · simp [List.filter_cons, hii]
        try omega

theorem buildTasksFrom_fst (text_column : String) (chunk : List Record) :
    ∀ i tasks, buildTasksFrom text_column i chunk = .ok tasks →
      tasks.map (fun t => t.1) = List.range' i chunk.length := by
  induction chunk with
  | nil =>
    intro i tasks h
    simp only [buildTasksFrom, Except.ok.injEq] at h
    subst h
    rfl
  | cons ex rest ih =>
    intro i tasks h
    simp only [buildTasksFrom] at h
    cases hx : alookup text_column ex with
    | none => rw [hx] at h; cases h
    | some v =>
      rw [hx] at h
      cases hr : buildTasksFrom text_column (i + 1) rest with
      | error e => rw [hr] at h; cases h
      | ok ts =>
        rw [hr] at h
        cases h
        rw [List.length_cons, List.range'_succ, List.map_cons, ih (i + 1) ts hr]

/-- Claim C7: in the MinHash/LSH engine every processed record lands in
exactly one group. When the query returns no match, a new singleton group
is created under the fresh synthetic key doc_{key_counter} (the counter
increasing monotonically, by one per kept record) and the record is kept;
when the query returns matches, the record is appended to the group of the
first returned key and discarded. Under the stated index invariants (query
returns only inserted keys, keys at or above the counter are unused, every
LSH key has a group) the group-table multiplicity of every processed
record of a new chunk id is exactly one. -/
theorem c7_lsh_exactly_one_group :
    (∀ (Sig : Type) (mh : String → Sig) query text_column chunk_id log_duplicates
        (st : MinHashState Sig) chunk tasks,
      (∀ lsh sig k, k ∈ query lsh sig → ∃ s, (k, s) ∈ lsh) →
      (∀ j, st.key_counter ≤ j → alookup (dockey j) st.index = none) →
      (∀ ky sg, (ky, sg) ∈ st.lsh → (alookup ky st.index).isSome) →
      (∀ kg ∈ st.index, ∀ e ∈ kg.2, e.1 ≠ chunk_id) →
      buildTasks text_column chunk = .ok tasks →
      ∀ i, i < chunk.length →
        groupMult chunk_id i
          (minhashRun mh query text_column chunk_id log_duplicates st chunk).1.index = 1) ∧
    (∀ (Sig : Type) (mh : String → Sig) query chunk_id log_duplicates
        (st : MinHashState Sig) tasks,
      (minhashLoop mh query chunk_id log_duplicates st tasks).1.key_counter =
        st.key_counter +
          (minhashLoop mh query chunk_id log_duplicates st tasks).2.1.length) ∧
    (∀ (Sig : Type) (mh : String → Sig) query chunk_id (st : MinHashState Sig) idx ex text,
      query st.lsh (mh text) = [] →
      minhashLoop mh query chunk_id true st [(idx, ex, text)] =
        ({ st with lsh := st.lsh ++ [(dockey st.key_counter, mh text)],
                   index := alistSet (dockey st.key_counter) [(chunk_id, idx, text)] st.index,
                   key_counter := st.key_counter + 1 }, [ex], [0])) ∧
    (∀ (Sig : Type) (mh : String → Sig) query chunk_id (st : MinHashState Sig) idx ex text
        mk ms,
      query st.lsh (mh text) = mk :: ms →
      minhashLoop mh query chunk_id true st [(idx, ex, text)] =
        ({ st with index := alistAppend mk (chunk_id, idx, text) st.index,
                   global_duplicates := st.global_duplicates + 1 }, [],
         [(alistGetD mk [] st.index).length])) := by
  refine ⟨?_, ?_, ?_, ?_⟩
  · intro Sig mh query text_column chunk_id log_duplicates st chunk tasks Hq Hkeys Ilsh
      Hcid hbt i hi
    have hfst : tasks.map (fun t => t.1) = List.range' 0 chunk.length :=
      buildTasksFrom_fst text_column chunk 0 tasks hbt
    have hcnt : (tasks.filter (fun t => t.1 = i)).length = 1 := by
      have h1 : (tasks.filter (fun t => t.1 = i)).length =
          List.countP (fun t => decide (t.1 = i)) tasks :=
        (List.countP_eq_length_filter _ _).symm
      have h2 : List.countP (fun x => decide (x = i)) (tasks.map (fun t => t.1)) =
          List.countP (fun t => decide (t.1 = i)) tasks := by
        rw [List.countP_map]
        rfl
      rw [h1, ← h2, hfst, List.countP_eq_length_filter]
      exact range'_filter_one i chunk.length 0 (by omega) (by omega)
    obtain ⟨ih1, _, _⟩ := minhashLoop_invariants mh query chunk_id log_duplicates Hq tasks
      st Hkeys Ilsh
    have hmult := ih1 i
    rw [groupMult_zero chunk_id i st.index Hcid, hcnt] at hmult
    rw [minhashRun_ok_build mh query text_column chunk_id log_duplicates st chunk tasks hbt]
    simpa using hmult
  · intro Sig mh query chunk_id log_duplicates st tasks
    exact minhashLoop_counter mh query chunk_id log_duplicates tasks st
  · intro Sig mh query chunk_id st idx ex text hq
    simp only [minhashLoop, hq, if_true]
  · intro Sig mh query chunk_id st idx ex text mk ms hq
    simp only [minhashLoop, hq]
    rw [alistAppend_eq_set]
    simp

/-- Witness for C7 on a fresh engine with an always-empty query. -/
theorem c7_witness :
    (∀ lsh sig k, k ∈ (fun (_ : List (String × ℕ)) (_ : ℕ) => ([] : List String)) lsh sig →
      ∃ s, (k, s) ∈ lsh) ∧
    (∀ j, (minhashFresh ℕ).key_counter ≤ j →
      alookup (dockey j) (minhashFresh ℕ).index = none) ∧
    (∀ ky sg, (ky, sg) ∈ (minhashFresh ℕ).lsh →
      (alookup ky (minhashFresh ℕ).index).isSome) ∧
    (∀ kg ∈ (minhashFresh ℕ).index, ∀ e ∈ kg.2, e.1 ≠ 7) ∧
    buildTasks "text" [[("text", Val.str "a")]] = .ok [(0, [("text", Val.str "a")], "a")] ∧
    (0 : ℕ) < [[("text", Val.str "a")]].length ∧
    groupMult 7 0
      (minhashRun (fun s => s.length) (fun _ _ => []) "text" 7 true (minhashFresh ℕ)
        [[("text", Val.str "a")]]).1.index = 1 := by
  have hq : ∀ lsh sig k,
      k ∈ (fun (_ : List (String × ℕ)) (_ : ℕ) => ([] : List String)) lsh sig →
      ∃ s, (k, s) ∈ lsh := by
    intro lsh sig k hk
    simp at hk
  have hkeys : ∀ j, (minhashFresh ℕ).key_counter ≤ j →
      alookup (dockey j) (minhashFresh ℕ).index = none := fun j _ => rfl
  have hlsh : ∀ ky sg, (ky, sg) ∈ (minhashFresh ℕ).lsh →
      (alookup ky (minhashFresh ℕ).index).isSome := by
    intro ky sg h
    simp [minhashFresh] at h
  have hcid : ∀ kg ∈ (minhashFresh ℕ).index, ∀ e ∈ kg.2, e.1 ≠ 7 := by
    intro kg h
    simp [minhashFresh] at h
  have hbt : buildTasks "text" [[("text", Val.str "a")]] =
      .ok [(0, [("text", Val.str "a")], "a")] := by rfl
  exact ⟨hq, hkeys, hlsh, hcid, hbt, by norm_num,
    c7_lsh_exactly_one_group.1 ℕ (fun s => s.length) (fun _ _ => []) "text" 7 true
      (minhashFresh ℕ) [[("text", Val.str "a")]] [(0, [("text", Val.str "a")], "a")]
      hq hkeys hlsh hcid hbt 0 (by norm_num)⟩
